import Mathlib

/-!
Shallow embedding of the streaming HTTP/1.x reverse proxy core
(`proxy/utils/http.py`, `proxy/client_handler.py`, `proxy/upstream_pool.py`,
`proxy/timeouts.py`).

Bytes on the wire are modelled as `Nat` code points (ISO-8859-1 decodes byte
`n` to char `n`, so decoded text is represented by the same list).  A stream
reader is a `List Nat` of the bytes still buffered; `read n` returns up to
`n` bytes from the front and `readline` returns bytes up to and including the
first LF.  Fallible code returns `Except PyExc`.  Exception messages are
dropped: they never influence control flow.  Python is modelled at version
3.11+, where `asyncio.TimeoutError` is the builtin `TimeoutError`.
-/

namespace Proxy

/-- Python exception classes relevant to `handle_client`'s `except` chain.
`connectionError` covers `ConnectionError` and its subclasses
(`ConnectionRefusedError`, `ConnectionResetError`, `BrokenPipeError`);
`timeoutError` is the builtin `TimeoutError` (= `asyncio.TimeoutError` on
Python 3.11+); `osError` covers `OSError`s that are neither of those
(e.g. `socket.gaierror`, host-unreachable); `valueError` is `ValueError`. -/
inductive PyExc where
  | timeoutError
  | connectionError
  | valueError
  | osError
  | otherError
deriving DecidableEq, Repr

/-- 16 KiB transfer buffer (`CHUNK_SIZE = 16 * 1024` in `client_handler.py`). -/
def CHUNK_SIZE : Nat := 16 * 1024

/-- `reader.read(n)`: return up to `n` bytes from the front of the buffer
together with the rest of the buffer. -/
def readBytes (n : Nat) (src : List Nat) : List Nat × List Nat :=
  (src.take n, src.drop n)

/-- `reader.readline()`: bytes up to and including the first LF (10); at EOF
without a LF, whatever remains. -/
def readline (src : List Nat) : List Nat × List Nat :=
  match src with
  | [] => ([], [])
  | c :: rest =>
    if c = 10 then ([c], rest)
    else
      let (line, r) := readline rest
      (c :: line, r)

/-- A single line as `readline` delivers it: non-empty, ends with LF, and
contains no interior LF. -/
def lineOk (l : List Nat) : Prop :=
  l ≠ [] ∧ l.getLast? = some 10 ∧ 10 ∉ l.dropLast

instance (l : List Nat) : Decidable (lineOk l) :=
  inferInstanceAs (Decidable (l ≠ [] ∧ l.getLast? = some 10 ∧ 10 ∉ l.dropLast))

/-- The buffered copy loop shared by `stream_body_fixed` and the data loop of
`stream_body_chunked`:

    while remaining > 0:
        chunk = await reader.read(min(CHUNK_SIZE, remaining))
        if not chunk: raise ConnectionError(...)
        writer.write(chunk); await writer.drain()
        remaining -= len(chunk)

Returns the bytes written to the destination and the bytes left unread in the
source.  `remaining` is an `Int` exactly as in Python, where the caller may
pass a negative value (the loop then writes nothing). -/
def copyLoop (src : List Nat) (remaining : Int) : Except PyExc (List Nat × List Nat) :=
  if h : remaining ≤ 0 then .ok ([], src)
  else
    if hc : src.take (min CHUNK_SIZE remaining.toNat) = [] then .error .connectionError
    else
      match copyLoop (src.drop (src.take (min CHUNK_SIZE remaining.toNat)).length)
          (remaining - (src.take (min CHUNK_SIZE remaining.toNat)).length) with
      | .error e => .error e
      | .ok (out, rest) => .ok (src.take (min CHUNK_SIZE remaining.toNat) ++ out, rest)
termination_by remaining.toNat
decreasing_by
  have h1 : 0 < remaining := lt_of_not_le h
  have h2 : 0 < (src.take (min CHUNK_SIZE remaining.toNat)).length := List.length_pos.mpr hc
  omega

/-- `stream_body_fixed(reader, writer, length, timeouts)`: the copy loop run
with `remaining = length`. -/
def stream_body_fixed (src : List Nat) (length : Int) : Except PyExc (List Nat × List Nat) :=
  copyLoop src length

/-- Characters the Python `str.strip()` removes, restricted to the ISO-8859-1
range: TAB LF VT FF CR (9-13), FS GS RS US (28-31), space (32), NEL (133) and
NBSP (160). -/
def isStrSpace (c : Nat) : Bool :=
  c = 9 ∨ c = 10 ∨ c = 11 ∨ c = 12 ∨ c = 13 ∨ c = 28 ∨ c = 29 ∨ c = 30 ∨
  c = 31 ∨ c = 32 ∨ c = 133 ∨ c = 160

/-- Characters `bytes.strip()` removes: ASCII whitespace only. -/
def isBytesSpace (c : Nat) : Bool :=
  c = 9 ∨ c = 10 ∨ c = 11 ∨ c = 12 ∨ c = 13 ∨ c = 32

/-- Strip with a given whitespace predicate: drop from both ends. -/
def stripWith (p : Nat → Bool) (l : List Nat) : List Nat :=
  ((l.dropWhile p).reverse.dropWhile p).reverse

/-- Python `str.strip()` (on ISO-8859-1 text). -/
def strStrip (l : List Nat) : List Nat := stripWith isStrSpace l

/-- Python `bytes.strip()`. -/
def bytesStrip (l : List Nat) : List Nat := stripWith isBytesSpace l

/-- Python `str.lower()` on an ISO-8859-1 code point: ASCII `A`-`Z` and
Latin-1 `À`-`Þ` (0xC0-0xDE, excluding `×` 0xD7) map down by 32. -/
def lowerChar (c : Nat) : Nat :=
  if 65 ≤ c ∧ c ≤ 90 then c + 32
  else if 192 ≤ c ∧ c ≤ 222 ∧ c ≠ 215 then c + 32
  else c

/-- Python `str.lower()`. -/
def lowerStr (l : List Nat) : List Nat := l.map lowerChar

/-- Python `s.split(" ", 2)`: split at the first space, then at the next
space of the remainder; the third part keeps any further spaces.  Adjacent
separators produce empty parts (no collapsing). -/
def splitSp2 (s : List Nat) : List (List Nat) :=
  match breakAtSp s with
  | (a, none) => [a]
  | (a, some s₁) =>
    match breakAtSp s₁ with
    | (b, none) => [a, b]
    | (b, some s₂) => [a, b, s₂]
where
  /-- Split off the part before the first space (32); `none` if no space. -/
  breakAtSp : List Nat → List Nat × Option (List Nat)
  | [] => ([], none)
  | c :: rest =>
    if c = 32 then ([], some rest)
    else
      match breakAtSp rest with
      | (a, r) => (c :: a, r)

/-- Python `s.partition(":")`: `(before, after)` around the first colon (58);
with no colon, `(s, "")` — exactly the triple `(s, "", "")` collapsed to the
two components the parser uses. -/
def partitionColon (s : List Nat) : List Nat × List Nat :=
  match s with
  | [] => ([], [])
  | c :: rest =>
    if c = 58 then ([], rest)
    else
      match partitionColon rest with
      | (a, b) => (c :: a, b)

/-- `headers[name] = value` on a Python `dict` kept as an ordered association
list: an existing key keeps its position and gets the new value (last-wins);
a new key is appended. -/
def dictSet (d : List (List Nat × List Nat)) (k v : List Nat) :
    List (List Nat × List Nat) :=
  if d.any (fun p => p.1 = k) then
    d.map (fun p => if p.1 = k then (k, v) else p)
  else d ++ [(k, v)]

/-- `dict.get`: the value stored under `k`, if any. -/
def dictGet (d : List (List Nat × List Nat)) (k : List Nat) :
    Option (List Nat) :=
  match d.find? (fun p => p.1 = k) with
  | some p => some p.2
  | none => none

/-- Parsed HTTP request head (`HttpRequest` in `utils/http.py`): method,
request-target, version (ISO-8859-1 text) and the ordered lower-cased header
mapping.  The body stays in the reader. -/
structure HttpRequest where
  method : List Nat
  path : List Nat
  version : List Nat
  headers : List (List Nat × List Nat)
deriving DecidableEq, Repr

/-- `readline` returns a prefix: line and leftover reassemble the buffer. -/
theorem readline_append (src : List Nat) :
    (readline src).1 ++ (readline src).2 = src := by
  induction src with
  | nil => simp [readline]
  | cons c cs ih =>
    by_cases h : c = 10 <;> simp [readline, h, ih]

/-- `readline` returns an empty line exactly at EOF. -/
theorem readline_nil_iff (src : List Nat) :
    (readline src).1 = [] ↔ src = [] := by
  cases src with
  | nil => simp [readline]
  | cons c cs =>
    constructor
    · intro h
      by_cases hc : c = 10 <;> simp [readline, hc] at h
    · intro h
      exact absurd h (List.cons_ne_nil c cs)

/-- A non-empty buffer strictly shrinks past its first line. -/
theorem readline_snd_length {src : List Nat} (h : src ≠ []) :
    (readline src).2.length < src.length := by
  have h1 := readline_append src
  have h2 : (readline src).1 ≠ [] := fun hn => h ((readline_nil_iff src).mp hn)
  have h3 : (readline src).1.length + (readline src).2.length = src.length := by
    conv_rhs => rw [← h1]
    rw [List.length_append]
  have h4 : 0 < (readline src).1.length := List.length_pos.mpr h2
  omega

/-- The header loop of `parse_request`: read lines until an empty line
(`\r\n`, `\n` or EOF); each line is `partition`ed at the first `:`, the name
trimmed and lower-cased, the value trimmed; a line with no `:` stores the
whole trimmed lower-cased line under an empty value. -/
def parseHeaders (src : List Nat) (d : List (List Nat × List Nat)) :
    List (List Nat × List Nat) × List Nat :=
  if hline : (readline src).1 = [13, 10] ∨ (readline src).1 = [10] ∨
      (readline src).1 = [] then
    (d, (readline src).2)
  else
    parseHeaders (readline src).2
      (dictSet d (lowerStr (strStrip (partitionColon (readline src).1).1))
        (strStrip (partitionColon (readline src).1).2))
termination_by src.length
decreasing_by
  have hs : src ≠ [] := by
    intro hn
    exact hline (Or.inr (Or.inr ((readline_nil_iff src).mpr hn)))
  exact readline_snd_length hs

/-- `parse_request(reader)`: read the request line, `strip` it, split it on
single spaces with `maxsplit=2`; an empty read (EOF) raises
`ConnectionError`, any split that is not three parts raises `ValueError`;
then run the header loop.  Returns the parsed head together with the bytes
left in the reader (the body is not consumed). -/
def parse_request (src : List Nat) : Except PyExc (HttpRequest × List Nat) :=
  match readline src with
  | (line, rest) =>
    if line = [] then .error .connectionError
    else
      match splitSp2 (strStrip line) with
      | [m, p, v] =>
        match parseHeaders rest [] with
        | (hdrs, rest') => .ok (⟨m, p, v, hdrs⟩, rest')
      | _ => .error .valueError

/-- Auxiliary: reassembling a take with a drop of the take's length. -/
theorem take_append_drop_length (l : List Nat) (n : Nat) :
    l.take n ++ l.drop (l.take n).length = l := by
  rw [List.length_take]
  rcases le_or_lt n l.length with h | h
  · rw [min_eq_left h, List.take_append_drop]
  · rw [min_eq_right (le_of_lt h), List.drop_length, List.append_nil,
      List.take_of_length_le (le_of_lt h)]

/-- On success the copy loop writes exactly the prefix it consumed: the
output followed by the leftover reassembles the source, and the output holds
exactly `remaining` bytes (clamped at zero). -/
theorem copyLoop_ok (src : List Nat) (r : Int) (out rest : List Nat)
    (h : copyLoop src r = .ok (out, rest)) :
    out ++ rest = src ∧ out.length = r.toNat := by
  generalize hn : r.toNat = n at *
  induction n using Nat.strong_induction_on generalizing src r out rest with
  | _ n ih =>
    rw [copyLoop] at h
    by_cases h0 : r ≤ 0
    · simp only [h0, dif_pos, Except.ok.injEq, Prod.mk.injEq] at h
      obtain ⟨h1, h2⟩ := h
      subst h1
      subst h2
      refine ⟨rfl, ?_⟩
      simp only [List.length_nil]
      omega
    · simp only [h0, dif_neg, not_false_iff] at h
      by_cases hc : src.take (min CHUNK_SIZE r.toNat) = []
      · simp [hc] at h
      · simp only [hc, dif_neg, not_false_iff] at h
        set chunk := src.take (min CHUNK_SIZE r.toNat) with hchunk
        have hlen1 : 0 < chunk.length := List.length_pos.mpr hc
        have hlen2 : chunk.length ≤ r.toNat := by
          have : chunk.length ≤ min CHUNK_SIZE r.toNat := by
            rw [hchunk]; exact (List.length_take _ _) ▸ min_le_left _ _
          omega
        cases hrec : copyLoop (src.drop chunk.length) (r - chunk.length) with
        | error e => rw [hrec] at h; exact absurd h (by simp)
        | ok p =>
          obtain ⟨out', rest'⟩ := p
          rw [hrec] at h
          simp only [Except.ok.injEq, Prod.mk.injEq] at h
          have hr0 : 0 < r := lt_of_not_le h0
          have hN : (r - chunk.length).toNat < n := by omega
          obtain ⟨iha, ihb⟩ := ih _ hN _ _ _ _ hrec rfl
          constructor
          · rw [← h.1, ← h.2, List.append_assoc, iha, hchunk,
              take_append_drop_length]
          · rw [← h.1, List.length_append, ihb]
            omega

/-- On failure the copy loop has hit EOF: nothing is returned, but for
termination purposes what matters is the success case above. -/
theorem copyLoop_rest_le (src : List Nat) (r : Int) (out rest : List Nat)
    (h : copyLoop src r = .ok (out, rest)) : rest.length ≤ src.length := by
  have := (copyLoop_ok src r out rest h).1
  calc rest.length ≤ out.length + rest.length := Nat.le_add_left _ _
    _ = src.length := by rw [← List.length_append, this]

/-- The copy loop delivers exactly the first `length` bytes of the source,
in order, and leaves the rest unread. -/
theorem copyLoop_exact (body extra : List Nat) :
    copyLoop (body ++ extra) (body.length : Int) = .ok (body, extra) := by
  have H : ∀ (n : Nat) (body extra : List Nat), body.length = n →
      copyLoop (body ++ extra) (n : Int) = .ok (body, extra) := by
    intro n
    induction n using Nat.strong_induction_on with
    | _ n ih =>
      intro body extra hlen
      rw [copyLoop]
      by_cases h0 : (n : Int) ≤ 0
      · have hn : n = 0 := by omega
        subst hn
        have hb : body = [] := List.length_eq_zero.mp hlen
        subst hb
        rw [dif_pos h0]
        simp
      · rw [dif_neg h0]
        have hn0 : 0 < n := by omega
        have htn : ((n : Int)).toNat = n := Int.toNat_natCast n
        have hcs : 0 < CHUNK_SIZE := by norm_num [CHUNK_SIZE]
        have ht1 : 1 ≤ min CHUNK_SIZE ((n : Int)).toNat := by
          rw [htn]; omega
        have htle : min CHUNK_SIZE ((n : Int)).toNat ≤ n := by
          rw [htn]; omega
        have htake : (body ++ extra).take (min CHUNK_SIZE ((n : Int)).toNat) =
            body.take (min CHUNK_SIZE ((n : Int)).toNat) :=
          List.take_append_of_le_length (by omega)
        rw [htake]
        have hlt : (body.take (min CHUNK_SIZE ((n : Int)).toNat)).length =
            min CHUNK_SIZE ((n : Int)).toNat := by
          rw [List.length_take]; omega
        have hchunk_ne : body.take (min CHUNK_SIZE ((n : Int)).toNat) ≠ [] := by
          intro hx
          have := congrArg List.length hx
          rw [hlt] at this
          simp at this
          omega
        rw [dif_neg hchunk_ne, hlt]
        have hdrop : (body ++ extra).drop (min CHUNK_SIZE ((n : Int)).toNat) =
            body.drop (min CHUNK_SIZE ((n : Int)).toNat) ++ extra :=
          List.drop_append_of_le_length (by omega)
        have harg : (n : Int) - (min CHUNK_SIZE ((n : Int)).toNat : Nat) =
            ((n - min CHUNK_SIZE ((n : Int)).toNat : Nat) : Int) := by
          push_cast
          omega
        rw [hdrop, harg,
          ih (n - min CHUNK_SIZE ((n : Int)).toNat) (by omega) _ extra
            (by rw [List.length_drop]; omega)]
        simp [List.take_append_drop]
  exact H body.length body extra rfl

/-- A source shorter than the requested length makes the copy loop fail with
the premature-EOF connection error. -/
theorem copyLoop_short : ∀ (src : List Nat) (r : Int),
    (src.length : Int) < r → copyLoop src r = .error .connectionError := by
  have H : ∀ (m : Nat) (src : List Nat) (r : Int), r.toNat = m →
      (src.length : Int) < r → copyLoop src r = .error .connectionError := by
    intro m
    induction m using Nat.strong_induction_on with
    | _ m ih =>
      intro src r hm hshort
      have h0 : ¬ r ≤ 0 := by omega
      rw [copyLoop, dif_neg h0]
      cases hsrc : src with
      | nil =>
        rw [dif_pos]
        simp
      | cons c cs =>
        subst hsrc
        have hcs : 0 < CHUNK_SIZE := by norm_num [CHUNK_SIZE]
        have ht1 : 1 ≤ min CHUNK_SIZE r.toNat := by omega
        have hne : (c :: cs).take (min CHUNK_SIZE r.toNat) ≠ [] := by
          intro hx
          have := congrArg List.length hx
          rw [List.length_take] at this
          simp at this
          omega
        rw [dif_neg hne]
        have hlen : ((c :: cs).take (min CHUNK_SIZE r.toNat)).length =
            min (min CHUNK_SIZE r.toNat) (c :: cs).length := List.length_take _ _
        have hk1 : 1 ≤ ((c :: cs).take (min CHUNK_SIZE r.toNat)).length := by
          rw [hlen]
          refine le_min ht1 ?_
          simp
        have hkle : ((c :: cs).take (min CHUNK_SIZE r.toNat)).length ≤
            (c :: cs).length := by
          rw [hlen]
          exact min_le_right _ _
        have hrec := ih (r - ((c :: cs).take (min CHUNK_SIZE r.toNat)).length).toNat
          (by omega)
          ((c :: cs).drop ((c :: cs).take (min CHUNK_SIZE r.toNat)).length)
          (r - ((c :: cs).take (min CHUNK_SIZE r.toNat)).length) rfl
          (by rw [List.length_drop]; omega)
        rw [hrec]
  intro src r hshort
  exact H r.toNat src r rfl hshort

/-- `readline` on a buffer beginning with a proper line returns exactly that
line. -/
theorem readline_exact : ∀ (l : List Nat), lineOk l →
    ∀ rest, readline (l ++ rest) = (l, rest) := by
  intro l
  induction l with
  | nil => intro h; exact absurd rfl h.1
  | cons c cs ih =>
    intro h rest
    obtain ⟨hne, hlast, hdrop⟩ := h
    cases cs with
    | nil =>
      simp only [List.getLast?_singleton, Option.some.injEq] at hlast
      subst hlast
      simp [readline]
    | cons d ds =>
      rw [List.dropLast_cons₂] at hdrop
      simp only [List.mem_cons, not_or] at hdrop
      have hc : c ≠ 10 := fun h10 => hdrop.1 h10.symm
      have hlast2 : (d :: ds).getLast? = some 10 := by
        rw [List.getLast?_cons_cons] at hlast
        exact hlast
      have hok : lineOk (d :: ds) := ⟨List.cons_ne_nil _ _, hlast2, hdrop.2⟩
      have hr := ih hok rest
      show readline (c :: (d :: ds ++ rest)) = (c :: d :: ds, rest)
      rw [readline, if_neg hc, hr]

/-- Decimal digit value, for Python `int(str)`. -/
def digitValDec (c : Nat) : Option Nat :=
  if 48 ≤ c ∧ c ≤ 57 then some (c - 48) else none

/-- Hexadecimal digit value, for Python `int(bytes, 16)`. -/
def digitValHex (c : Nat) : Option Nat :=
  if 48 ≤ c ∧ c ≤ 57 then some (c - 48)
  else if 97 ≤ c ∧ c ≤ 102 then some (c - 87)
  else if 65 ≤ c ∧ c ≤ 70 then some (c - 55)
  else none

/-- Digit run of a Python integer literal after its first digit: further
digits, with single underscores allowed between digits only (an underscore
must be followed by a digit; `dv 95 = none`, so a doubled underscore
fails). -/
def digitsAux (dv : Nat → Option Nat) (base acc : Nat) : List Nat → Option Nat
  | [] => some acc
  | c :: rest =>
    if c = 95 then
      match rest with
      | [] => none
      | c' :: rest' =>
        match dv c' with
        | some d => digitsAux dv base (acc * base + d) rest'
        | none => none
    else
      match dv c with
      | some d => digitsAux dv base (acc * base + d) rest
      | none => none

/-- A nonempty digit run: first char must be a digit, then `digitsAux`. -/
def parseDigitsPy (dv : Nat → Option Nat) (base : Nat) :
    List Nat → Option Nat
  | [] => none
  | c :: rest =>
    match dv c with
    | some d => digitsAux dv base d rest
    | none => none

/-- Sign handling shared by Python `int()` conversions: an optional single
`+` (43) or `-` (45) directly before the magnitude. -/
def pyIntSigned (body : List Nat → Option Nat) (t : List Nat) : Option Int :=
  match t with
  | [] => (body []).map Int.ofNat
  | c :: r =>
    if c = 43 then (body r).map Int.ofNat
    else if c = 45 then (body r).map (fun n => -(n : Int))
    else (body (c :: r)).map Int.ofNat

/-- Python `int(s)` on ISO-8859-1 text: strip, optional sign, decimal digit
run; `none` models the raised `ValueError`. -/
def pyIntDec (s : List Nat) : Option Int :=
  pyIntSigned (parseDigitsPy digitValDec 10) (strStrip s)

/-- Magnitude of `int(b, 16)`: an optional `0x`/`0X` prefix (which may be
followed by one underscore) and a hex digit run. -/
def hexMagnitude : List Nat → Option Nat
  | 48 :: 120 :: 95 :: r => parseDigitsPy digitValHex 16 r
  | 48 :: 120 :: r => parseDigitsPy digitValHex 16 r
  | 48 :: 88 :: 95 :: r => parseDigitsPy digitValHex 16 r
  | 48 :: 88 :: r => parseDigitsPy digitValHex 16 r
  | r => parseDigitsPy digitValHex 16 r

/-- Python `int(b, 16)` on a bytes object: `bytes.strip`, optional sign,
hex magnitude. -/
def pyIntHex (s : List Nat) : Option Int :=
  pyIntSigned hexMagnitude (bytesStrip s)

/-- ISO-8859-1/ASCII bytes of a Lean string literal (for header names). -/
def bytesOf (s : String) : List Nat := s.data.map Char.toNat

/-- `HttpRequest.content_length`:

    cl = self.headers.get("content-length")
    return int(cl) if cl else None

`None` when the header is absent or its value is the empty string (falsy);
otherwise Python `int()`, whose `ValueError` propagates. -/
def content_length (req : HttpRequest) : Except PyExc (Option Int) :=
  match dictGet req.headers (bytesOf "content-length") with
  | none => .ok none
  | some cl =>
    if cl = [] then .ok none
    else
      match pyIntDec cl with
      | some n => .ok (some n)
      | none => .error .valueError

/-- `stream_body_chunked(reader, writer, timeouts)`: repeatedly read a size
line (EOF raises `ConnectionError`), echo it, parse it as `int(strip, 16)`
(failure raises `ValueError`); a zero size echoes one further line and stops;
otherwise copy `size + 2` bytes (chunk data plus its CRLF) with the buffered
copy loop and continue with the next size line.  Returns the bytes written
and the bytes left in the reader. -/
def stream_body_chunked (src : List Nat) : Except PyExc (List Nat × List Nat) :=
  if hempty : (readline src).1 = [] then .error .connectionError
  else
    match pyIntHex (bytesStrip (readline src).1) with
    | none => .error .valueError
    | some n =>
      if n = 0 then
        .ok ((readline src).1 ++ (readline (readline src).2).1,
          (readline (readline src).2).2)
      else
        match hcopy : copyLoop (readline src).2 (n + 2) with
        | .error e => .error e
        | .ok (data, rest2) =>
          match stream_body_chunked rest2 with
          | .error e => .error e
          | .ok (out, rest3) => .ok ((readline src).1 ++ data ++ out, rest3)
termination_by src.length
decreasing_by
  have hsrc : src ≠ [] := fun hn => hempty ((readline_nil_iff src).mpr hn)
  have h1 : (readline src).2.length < src.length := readline_snd_length hsrc
  have h2 : rest2.length ≤ (readline src).2.length :=
    copyLoop_rest_le _ _ _ _ hcopy
  omega

/-- `forward_request_headers(request, writer, timeouts)`: the bytes written —
`"{method} {path} {version}\r\n"`, then `"{name}: {value}\r\n"` for each
stored header in order, then the terminating `"\r\n"` (latin-1 encoded). -/
def forward_request_headers (req : HttpRequest) : List Nat :=
  req.method ++ [32] ++ req.path ++ [32] ++ req.version ++ [13, 10] ++
  (req.headers.map (fun p => p.1 ++ [58, 32] ++ p.2 ++ [13, 10])).flatten ++
  [13, 10]

/-- The HTML body `f"<html><body><h1>{status_code} {message}</h1></body></html>"`
of `send_error`. -/
def errorBody (status_code : Nat) (message : String) : String :=
  "<html><body><h1>" ++ toString status_code ++ " " ++ message ++
  "</h1></body></html>"

/-- The response head of `send_error`, with `Content-Length` computed from
`len(body.encode("utf-8"))`. -/
def errorHead (status_code : Nat) (message : String) : String :=
  "HTTP/1.1 " ++ toString status_code ++ " " ++ message ++ "\r\n" ++
  "Content-Type: text/html; charset=utf-8\r\n" ++
  "Content-Length: " ++ toString (errorBody status_code message).utf8ByteSize ++
  "\r\n" ++ "Connection: close\r\n" ++ "\r\n"

/-- `send_error(writer, status_code, message)`: the full byte text written to
the client — the head (latin-1) followed by the UTF-8 body bytes.  The body
and head are ASCII-only for every call site, so both encodings agree with the
string itself. -/
def send_error (status_code : Nat) (message : String) : String :=
  errorHead status_code message ++ errorBody status_code message

/-- The `except` chain of `handle_client`, first match wins:
`except TimeoutError` → 504, `except ConnectionError` → 502,
`except Exception` → 500.  (`TimeoutError` and `ConnectionError` are disjoint
classes: both subclass `OSError`, neither subclasses the other.) -/
def errorStatus : PyExc → Nat
  | .timeoutError => 504
  | .connectionError => 502
  | _ => 500

/-- The reason phrase passed to `send_error` by each `except` arm. -/
def errorMessage : PyExc → String
  | .timeoutError => "Gateway Timeout"
  | .connectionError => "Bad Gateway"
  | _ => "Internal Server Error"

/-- `UpstreamPool`: the ordered upstream list plus the rotation cursor
(`self._upstreams`, `self._index`).  The `asyncio.Lock` serializes cursor
updates; selections are modelled in their serialized order. -/
structure UpstreamPool (α : Type) where
  upstreams : List α
  index : Nat
deriving Repr

/-- `UpstreamPool.get_next`: return the upstream at the cursor and advance
the cursor by one modulo the pool length (under the lock). -/
def get_next [Inhabited α] (s : UpstreamPool α) : α × UpstreamPool α :=
  (s.upstreams.getD s.index default,
   ⟨s.upstreams, (s.index + 1) % s.upstreams.length⟩)

/-- `N` consecutive serialized `get_next` calls: the returned upstreams in
order, and the final pool state. -/
def runNext [Inhabited α] (s : UpstreamPool α) : Nat → List α × UpstreamPool α
  | 0 => ([], s)
  | n + 1 =>
    ((get_next s).1 :: (runNext (get_next s).2 n).1, (runNext (get_next s).2 n).2)

/-- The cursor positions visited by `N` consecutive selections starting at
cursor `i` in a pool of length `L`. -/
def selections (i L N : Nat) : List Nat :=
  (List.range N).map (fun t => (i + t) % L)

/-- Observable events of one `acquire_connection` scope, in order:
semaphore slot taken, TCP connection opened, writer close attempted
(close errors swallowed), semaphore slot released. -/
inductive AcqEvent where
  | slotAcquired
  | connected
  | writerClosed
  | slotReleased
deriving DecidableEq, Repr

/-- Outcome of `asyncio.wait_for(asyncio.open_connection(...), timeout)`. -/
inductive ConnectOutcome where
  | ok
  | timedOut
  | refused
  | unreachable
  | dnsFail
deriving DecidableEq, Repr

/-- The exception `wait_for(open_connection(host, port), timeout)` raises for
each failure: expiry raises `asyncio.TimeoutError` — the builtin
`TimeoutError` on Python 3.11+; a refused connection raises
`ConnectionRefusedError <: ConnectionError`; an unreachable host or a DNS
failure raises an `OSError`/`socket.gaierror` that is *not* a
`ConnectionError`. -/
def connectResult : ConnectOutcome → Except PyExc Unit
  | .ok => .ok ()
  | .timedOut => .error .timeoutError
  | .refused => .error .connectionError
  | .unreachable => .error .osError
  | .dnsFail => .error .osError

/-- `writer.close(); await writer.wait_closed()` may itself raise. -/
def closeWriter (closeRaises : Bool) : Except PyExc Unit :=
  if closeRaises then .error .osError else .ok ()

/-- The `finally` block of `acquire_connection` for an opened writer:
`try: close ... except Exception: pass` — whatever `closeWriter` does is
swallowed. -/
def closeQuietly (closeRaises : Bool) : Unit :=
  match closeWriter closeRaises with
  | .ok _ => ()
  | .error _ => ()

/-- `UpstreamPool.acquire_connection(timeout)` as a scope: after `get_next`,
the semaphore slot is acquired; the connect runs under `wait_for`; on
success the scope body (`yield`) runs with result `body`; the `finally`
closes the writer when one was opened (errors swallowed); leaving the
`async with semaphore` block releases the slot.  Returns the ordered event
trace and the propagated result. -/
def acquire_connection (co : ConnectOutcome) (body : Except PyExc Unit)
    (closeRaises : Bool) : List AcqEvent × Except PyExc Unit :=
  match connectResult co with
  | .error e =>
    -- writer is still None: the finally skips the close, the slot is freed
    ([.slotAcquired, .slotReleased], .error e)
  | .ok _ =>
    -- body runs, then finally: close (swallowed), then slot release
    match closeQuietly closeRaises with
    | () => ([.slotAcquired, .connected, .writerClosed, .slotReleased], body)

/-- `handle_client`, abstracted over the outcomes of its awaited steps:
`parseResult` is the (timeout-wrapped) `parse_request`, `co` the upstream
connect, `streamBody` everything the scope body does (header forwarding,
body streaming, response streaming).  The `try/except` chain turns an
escaping exception into exactly one `send_error` response, `None` when the
pipeline succeeds.  Also returns the acquisition trace when the pool scope
was entered. -/
def handle_client (parseResult : Except PyExc HttpRequest)
    (co : ConnectOutcome) (streamBody : Except PyExc Unit)
    (closeRaises : Bool) : Option (Nat × String) × List AcqEvent :=
  match parseResult with
  | .error e => (some (errorStatus e, errorMessage e), [])
  | .ok _ =>
    match acquire_connection co streamBody closeRaises with
    | (trace, .ok _) => (none, trace)
    | (trace, .error e) => (some (errorStatus e, errorMessage e), trace)

/-- `sub` occurs contiguously inside `s`. -/
def strHasLine (s sub : String) : Prop := ∃ a b, s = a ++ sub ++ b

/-- One non-final chunk of a well-formed chunked body: its size line (with
line terminator) and its payload. -/
structure Chunk where
  sizeLine : List Nat
  data : List Nat
deriving DecidableEq, Repr

/-- A well-formed non-final chunk: the size line is a proper line whose
stripped text parses (as the code parses it, `int(_, 16)`) to the payload
length, which is positive. -/
def chunkOk (c : Chunk) : Prop :=
  lineOk c.sizeLine ∧ pyIntHex (bytesStrip c.sizeLine) = some (c.data.length : Int) ∧
  c.data ≠ []

instance (c : Chunk) : Decidable (chunkOk c) :=
  inferInstanceAs (Decidable (lineOk c.sizeLine ∧
    pyIntHex (bytesStrip c.sizeLine) = some (c.data.length : Int) ∧
    c.data ≠ []))

/-- A chunk on the wire: size line, payload, and the payload's own CRLF. -/
def encodeChunk (c : Chunk) : List Nat := c.sizeLine ++ c.data ++ [13, 10]

/-- A well-formed chunked body on the wire: the chunks, then the zero-size
terminator line, then the single trailing line the code consumes verbatim. -/
def encodeChunked (cs : List Chunk) (term trailing : List Nat) : List Nat :=
  (cs.map encodeChunk).flatten ++ term ++ trailing

/-- First-occurrence deduplication of a key list — the order in which a
Python dict built by repeated assignment lists its keys. -/
def dedupFirst : List (List Nat) → List (List Nat)
  | [] => []
  | k :: ks => k :: dedupFirst (ks.filter (fun x => x ≠ k))
termination_by l => l.length
decreasing_by
  exact Nat.lt_succ_of_le (List.length_filter_le _ ks)

/-- The value the last pair with key `k` carries, if any — what last-wins
assignment leaves in the dict. -/
def lastValue (pairs : List (List Nat × List Nat)) (k : List Nat) :
    Option (List Nat) :=
  pairs.foldl (fun acc q => if q.1 = k then some q.2 else acc) none

/-- A raw header line as a client sends it: `name ":" value CRLF`. -/
def headerLineRaw (q : List Nat × List Nat) : List Nat :=
  q.1 ++ [58] ++ q.2 ++ [13, 10]

/-- A raw request head on the wire: request line, raw header lines, empty
line. -/
def buildRequest (m p v : List Nat) (pairs : List (List Nat × List Nat)) :
    List Nat :=
  m ++ [32] ++ p ++ [32] ++ v ++ [13, 10] ++
  (pairs.map headerLineRaw).flatten ++ [13, 10]

/-- The header dict `parse_request` builds from raw `(name, value)` pairs:
repeated `headers[name.strip().lower()] = value.strip()`. -/
def normalizeHeaders (pairs : List (List Nat × List Nat)) :
    List (List Nat × List Nat) :=
  pairs.foldl (fun d q => dictSet d (lowerStr (strStrip q.1)) (strStrip q.2)) []

/-- A well-formed chunked body is forwarded verbatim — size lines, chunk
payloads with their CRLFs, and the terminator — and nothing after the
trailing line is consumed. -/
theorem stream_body_chunked_exact :
    ∀ (cs : List Chunk), (∀ c ∈ cs, chunkOk c) →
    ∀ (term trailing : List Nat), lineOk term →
    pyIntHex (bytesStrip term) = some 0 → lineOk trailing →
    ∀ extra, stream_body_chunked (encodeChunked cs term trailing ++ extra) =
      .ok (encodeChunked cs term trailing, extra) := by
  intro cs
  induction cs with
  | nil =>
    intro _ term trailing hterm hparse htrail extra
    have henc : encodeChunked [] term trailing ++ extra =
        term ++ (trailing ++ extra) := by
      simp [encodeChunked]
    rw [henc, stream_body_chunked]
    simp only [readline_exact term hterm (trailing ++ extra)]
    rw [dif_neg hterm.1]
    simp only [hparse]
    simp only [if_true, readline_exact trailing htrail extra]
    simp [encodeChunked]
  | cons c cs ihc =>
    intro hall term trailing hterm hparse htrail extra
    obtain ⟨hline, hsize, hdata⟩ := hall c (List.mem_cons_self c cs)
    have hrest : ∀ c' ∈ cs, chunkOk c' :=
      fun c' h => hall c' (List.mem_cons_of_mem _ h)
    have ih := ihc hrest term trailing hterm hparse htrail extra
    have henc : encodeChunked (c :: cs) term trailing ++ extra =
        c.sizeLine ++
          ((c.data ++ [13, 10]) ++ (encodeChunked cs term trailing ++ extra)) := by
      simp [encodeChunked, encodeChunk, List.append_assoc]
    rw [henc, stream_body_chunked]
    simp only [readline_exact c.sizeLine hline]
    rw [dif_neg hline.1]
    simp only [hsize]
    have hne0 : ¬ ((c.data.length : Int) = 0) := by
      simp only [Int.natCast_eq_zero, List.length_eq_zero]
      exact hdata
    rw [if_neg hne0]
    have hcopy : copyLoop
        ((c.data ++ [13, 10]) ++ (encodeChunked cs term trailing ++ extra))
        ((c.data.length : Int) + 2) =
        .ok (c.data ++ [13, 10], encodeChunked cs term trailing ++ extra) := by
      have h1 := copyLoop_exact (c.data ++ [13, 10])
        (encodeChunked cs term trailing ++ extra)
      have h2 : (((c.data ++ [13, 10]).length : Nat) : Int) =
          (c.data.length : Int) + 2 := by
        simp [List.length_append]
      rw [h2] at h1
      exact h1
    split
    · rename_i e heq
      rw [readline_exact c.sizeLine hline] at heq
      simp only at heq
      rw [hcopy] at heq
      simp at heq
    · rename_i data rest2 heq
      rw [readline_exact c.sizeLine hline] at heq
      simp only at heq
      rw [hcopy] at heq
      simp only [Except.ok.injEq, Prod.mk.injEq] at heq
      obtain ⟨h3, h4⟩ := heq
      subst h3
      subst h4
      rw [ih]
      simp [encodeChunked, encodeChunk, List.append_assoc]

/-- On success the chunked streamer has written exactly the prefix it
consumed: output and leftover reassemble the source. -/
theorem stream_body_chunked_prefix :
    ∀ (src out rest : List Nat), stream_body_chunked src = .ok (out, rest) →
    out ++ rest = src := by
  have H : ∀ (n : Nat) (src : List Nat), src.length = n → ∀ out rest,
      stream_body_chunked src = .ok (out, rest) → out ++ rest = src := by
    intro n
    induction n using Nat.strong_induction_on with
    | _ n ih =>
      intro src hlen out rest h
      rw [stream_body_chunked] at h
      by_cases hempty : (readline src).1 = []
      · rw [dif_pos hempty] at h
        simp at h
      · rw [dif_neg hempty] at h
        cases hint : pyIntHex (bytesStrip (readline src).1) with
        | none =>
          rw [hint] at h
          simp at h
        | some m =>
          rw [hint] at h
          simp only [] at h
          by_cases hm : m = 0
          · rw [if_pos hm] at h
            simp only [Except.ok.injEq, Prod.mk.injEq] at h
            obtain ⟨h1, h2⟩ := h
            rw [← h1, ← h2, List.append_assoc, readline_append, readline_append]
          · rw [if_neg hm] at h
            split at h
            · simp at h
            · rename_i data rest2 heq
              cases hs : stream_body_chunked rest2 with
              | error e =>
                rw [hs] at h
                simp at h
              | ok p =>
                obtain ⟨out', rest3⟩ := p
                rw [hs] at h
                simp only [Except.ok.injEq, Prod.mk.injEq] at h
                obtain ⟨h1, h2⟩ := h
                have hcp := (copyLoop_ok _ _ _ _ heq).1
                have hlt : rest2.length < n := by
                  have e1 : (readline src).2.length < src.length :=
                    readline_snd_length
                      (fun hnil => hempty ((readline_nil_iff src).mpr hnil))
                  have e2 := copyLoop_rest_le _ _ _ _ heq
                  omega
                have hih := ih rest2.length (by omega) rest2 rfl out' rest3 hs
                rw [← h1, ← h2, List.append_assoc, List.append_assoc, hih, hcp,
                  readline_append]
  exact fun src out rest h => H src.length src rfl out rest h

/-- C3.  Body forwarding is byte-exact.  Fixed path: a source holding the
declared `N`-byte body delivers exactly those `N` bytes in order and leaves
the rest unread, and a source that ends early fails with the premature-EOF
connection error.  Chunked path: every well-formed chunked body is forwarded
verbatim — size lines, chunk payloads with their trailing CRLFs, and the
terminator — preserving each chunk boundary. -/
theorem body_forwarding_byte_exact :
    ∀ (body extra src : List Nat) (N : Int) (cs : List Chunk)
      (term trailing extra2 : List Nat),
    (N = (body.length : Int) →
      stream_body_fixed (body ++ extra) N = .ok (body, extra)) ∧
    ((src.length : Int) < N →
      stream_body_fixed src N = .error .connectionError) ∧
    ((∀ c ∈ cs, chunkOk c) → lineOk term →
      pyIntHex (bytesStrip term) = some 0 → lineOk trailing →
      stream_body_chunked (encodeChunked cs term trailing ++ extra2) =
        .ok (encodeChunked cs term trailing, extra2)) := by
  intro body extra src N cs term trailing extra2
  refine ⟨?_, ?_, ?_⟩
  · intro hN
    rw [hN]
    exact copyLoop_exact body extra
  · intro hshort
    exact copyLoop_short src N hshort
  · intro hcs hterm hparse htrail
    exact stream_body_chunked_exact cs hcs term trailing hterm hparse htrail
      extra2

/-- C3, witness: a 2-byte fixed body is copied exactly; a 1-byte source
cannot satisfy `Content-Length: 2`; the chunked body
`"1\r\nA\r\n0\r\n\r\n"` is forwarded verbatim with `"X"` left unread. -/
theorem body_forwarding_byte_exact_witness :
    stream_body_fixed ([104, 105] ++ [33]) 2 = .ok ([104, 105], [33]) ∧
    stream_body_fixed [104] 2 = .error .connectionError ∧
    stream_body_chunked
        (encodeChunked [⟨[49, 13, 10], [65]⟩] [48, 13, 10] [13, 10] ++ [88]) =
      .ok (encodeChunked [⟨[49, 13, 10], [65]⟩] [48, 13, 10] [13, 10], [88]) :=
  ⟨(body_forwarding_byte_exact [104, 105] [33] [] 2 [] [] [] []).1 (by decide),
    (body_forwarding_byte_exact [] [] [104] 2 [] [] [] []).2.1 (by decide),
    (body_forwarding_byte_exact [] [] [] 0 [⟨[49, 13, 10], [65]⟩] [48, 13, 10]
        [13, 10] [88]).2.2
      (by decide) (by decide) (by decide) (by decide)⟩

/-- C10.  The body copiers never over-read the source: on success the bytes
written followed by the bytes left in the reader reassemble the source
exactly — `stream_body_fixed` consumes exactly `max N 0` bytes and
`stream_body_chunked` consumes nothing beyond the trailing line after the
zero-size chunk — so bytes following the declared body remain unconsumed. -/
theorem copiers_never_overread :
    ∀ (src out rest : List Nat) (N : Int),
    (stream_body_fixed src N = copyLoop src N) ∧
    (stream_body_fixed src N = .ok (out, rest) →
      out ++ rest = src ∧ out.length = N.toNat) ∧
    (stream_body_chunked src = .ok (out, rest) → out ++ rest = src) := by
  intro src out rest N
  refine ⟨rfl, ?_, ?_⟩
  · intro h
    exact copyLoop_ok src N out rest h
  · intro h
    exact stream_body_chunked_prefix src out rest h

/-- C10, witness: a 2-byte read from a 3-byte source leaves the third byte
in the reader; the terminator-only chunked body leaves the following byte in
the reader. -/
theorem copiers_never_overread_witness :
    (([5, 6] ++ [7] = ([5, 6, 7] : List Nat)) ∧
      ([5, 6] : List Nat).length = (2 : Int).toNat) ∧
    (encodeChunked [] [48, 13, 10] [13, 10] ++ [88] =
      encodeChunked [] [48, 13, 10] [13, 10] ++ [88]) :=
  ⟨(copiers_never_overread [5, 6, 7] [5, 6] [7] 2).2.1
      (by simp [stream_body_fixed, copyLoop, CHUNK_SIZE]),
    (copiers_never_overread (encodeChunked [] [48, 13, 10] [13, 10] ++ [88])
        (encodeChunked [] [48, 13, 10] [13, 10]) [88] 0).2.2
      (stream_body_chunked_exact [] (by simp) [48, 13, 10] [13, 10] (by decide)
        (by decide) (by decide) [88])⟩

/-- Stripping a list none of whose characters are whitespace leaves it
unchanged. -/
theorem stripWith_eq_self {p : Nat → Bool} :
    ∀ (l : List Nat), (∀ c ∈ l, p c = false) → stripWith p l = l := by
  have key : ∀ (m : List Nat), (∀ c ∈ m, p c = false) → m.dropWhile p = m := by
    intro m hm
    cases m with
    | nil => rfl
    | cons a as =>
      rw [List.dropWhile_cons, hm a (List.mem_cons_self a as)]
      simp
  intro l h
  unfold stripWith
  rw [key l h, key l.reverse (fun c hc => h c (List.mem_reverse.mp hc)),
    List.reverse_reverse]

/-- A run of decimal digits always parses, to the evident non-negative
value. -/
theorem digitsAux_digits :
    ∀ (l : List Nat) (acc : Nat), (∀ c ∈ l, 48 ≤ c ∧ c ≤ 57) →
    ∃ k, digitsAux digitValDec 10 acc l = some k := by
  intro l
  induction l with
  | nil => intro acc _; exact ⟨acc, rfl⟩
  | cons c rest ih =>
    intro acc hall
    have hc := hall c (List.mem_cons_self c rest)
    have hc95 : ¬ c = 95 := by omega
    have hdv : digitValDec c = some (c - 48) := by
      simp [digitValDec, hc.1, hc.2]
    obtain ⟨k, hk⟩ := ih (acc * 10 + (c - 48))
      (fun d hd => hall d (List.mem_cons_of_mem c hd))
    refine ⟨k, ?_⟩
    rw [digitsAux.eq_def]
    simp only [if_neg hc95, hdv]
    exact hk

/-- A non-empty all-digit string is accepted by Python `int()` and yields a
non-negative value. -/
theorem pyIntDec_digits :
    ∀ (s : List Nat), s ≠ [] → (∀ c ∈ s, 48 ≤ c ∧ c ≤ 57) →
    ∃ n : Int, 0 ≤ n ∧ pyIntDec s = some n := by
  intro s hne hall
  have hnws : ∀ c ∈ s, isStrSpace c = false := by
    intro c hc
    have := hall c hc
    simp [isStrSpace]
    omega
  have hstrip : strStrip s = s := stripWith_eq_self s hnws
  unfold pyIntDec
  rw [hstrip]
  cases s with
  | nil => exact absurd rfl hne
  | cons c rest =>
    have hc := hall c (List.mem_cons_self c rest)
    have h43 : ¬ c = 43 := by omega
    have h45 : ¬ c = 45 := by omega
    have hdv : digitValDec c = some (c - 48) := by
      simp [digitValDec, hc.1, hc.2]
    obtain ⟨k, hk⟩ := digitsAux_digits rest (c - 48)
      (fun d hd => hall d (List.mem_cons_of_mem c hd))
    refine ⟨(k : Int), by positivity, ?_⟩
    rw [pyIntSigned, if_neg h43, if_neg h45, parseDigitsPy, hdv]
    simp only [hk, Option.map_some']
    rfl

/-- C9, counterexample.  The claim says `content_length` never yields a
negative value and never fails on a non-decimal header value; the code runs
bare `int(cl)`, so `content-length: -5` yields `-5` and
`content-length: abc` raises `ValueError`. -/
theorem content_length_negative_and_raises :
    content_length ⟨[], [], [],
        [(bytesOf "content-length", bytesOf "-5")]⟩ = .ok (some (-5)) ∧
    (-5 : Int) < 0 ∧
    content_length ⟨[], [], [],
        [(bytesOf "content-length", bytesOf "abc")]⟩ = .error .valueError := by
  refine ⟨rfl, by decide, rfl⟩

/-- C9, amended.  `content_length` is none exactly when the header is absent
or empty; otherwise it applies Python `int()`: an all-digit value parses to a
non-negative integer, any value `int()` accepts is returned as parsed (which
may be negative), and any other value raises `ValueError` (surfacing to the
client as a 500, not as "no body"). -/
theorem content_length_parse :
    ∀ (req : HttpRequest),
    (dictGet req.headers (bytesOf "content-length") = none →
      content_length req = .ok none) ∧
    (∀ s, dictGet req.headers (bytesOf "content-length") = some s →
      (s = [] → content_length req = .ok none) ∧
      (∀ n, pyIntDec s = some n → content_length req = .ok (some n)) ∧
      (s ≠ [] → pyIntDec s = none →
        content_length req = .error .valueError) ∧
      (s ≠ [] → (∀ c ∈ s, 48 ≤ c ∧ c ≤ 57) →
        ∃ n : Int, 0 ≤ n ∧ content_length req = .ok (some n))) := by
  intro req
  constructor
  · intro h
    rw [content_length, h]
  · intro s hs
    refine ⟨?_, ?_, ?_, ?_⟩
    · intro hnil
      simp only [content_length, hs]
      rw [if_pos hnil]
    · intro n hn
      simp only [content_length, hs]
      by_cases hnil : s = []
      · subst hnil
        simp [pyIntDec, strStrip, stripWith, pyIntSigned, parseDigitsPy] at hn
      · rw [if_neg hnil, hn]
    · intro hnil hn
      simp only [content_length, hs]
      rw [if_neg hnil, hn]
    · intro hne hdig
      obtain ⟨n, hn0, hn⟩ := pyIntDec_digits s hne hdig
      refine ⟨n, hn0, ?_⟩
      simp only [content_length, hs]
      rw [if_neg hne, hn]

/-- C9, witness: a request with `content-length: 17` parses to the
non-negative 17. -/
theorem content_length_parse_witness :
    content_length ⟨[], [], [],
      [(bytesOf "content-length", bytesOf "17")]⟩ = .ok (some 17) :=
  ((content_length_parse ⟨[], [], [],
      [(bytesOf "content-length", bytesOf "17")]⟩).2
    (bytesOf "17") (by decide)).2.1 17 (by decide)

/-- A list without spaces is not split. -/
theorem breakAtSp_no_space : ∀ (s : List Nat), 32 ∉ s →
    splitSp2.breakAtSp s = (s, none) := by
  intro s
  induction s with
  | nil => intro _; rfl
  | cons c cs ih =>
    intro h
    simp only [List.mem_cons, not_or] at h
    rw [splitSp2.breakAtSp, if_neg (fun hc => h.1 hc.symm), ih h.2]

/-- The first space splits the list there. -/
theorem breakAtSp_split : ∀ (a t : List Nat), 32 ∉ a →
    splitSp2.breakAtSp (a ++ 32 :: t) = (a, some t) := by
  intro a
  induction a with
  | nil => intro t _; simp [splitSp2.breakAtSp]
  | cons c cs ih =>
    intro t h
    simp only [List.mem_cons, not_or] at h
    rw [List.cons_append, splitSp2.breakAtSp,
      if_neg (fun hc => h.1 hc.symm), ih t h.2]

/-- Every output of `breakAtSp` is one of the two shapes above. -/
theorem breakAtSp_cases : ∀ (s : List Nat),
    (32 ∉ s ∧ splitSp2.breakAtSp s = (s, none)) ∨
    (∃ a t, s = a ++ 32 :: t ∧ 32 ∉ a ∧
      splitSp2.breakAtSp s = (a, some t)) := by
  intro s
  induction s with
  | nil => exact Or.inl ⟨by simp, rfl⟩
  | cons c cs ih =>
    by_cases hc : c = 32
    · subst hc
      exact Or.inr ⟨[], cs, rfl, by simp, by rw [splitSp2.breakAtSp]; simp⟩
    · rcases ih with ⟨hmem, heq⟩ | ⟨a, t, hs, hmem, heq⟩
      · refine Or.inl ⟨?_, ?_⟩
        · simp only [List.mem_cons, not_or]
          exact ⟨fun h => hc h.symm, hmem⟩
        · rw [splitSp2.breakAtSp, if_neg (fun h => hc h), heq]
      · refine Or.inr ⟨c :: a, t, by rw [hs, List.cons_append], ?_, ?_⟩
        · simp only [List.mem_cons, not_or]
          exact ⟨fun h => hc h.symm, hmem⟩
        · rw [splitSp2.breakAtSp, if_neg (fun h => hc h), heq]

/-- `split(" ", 2)` produces at most three parts, and exactly three iff the
string holds at least two spaces. -/
theorem splitSp2_length (s : List Nat) :
    (splitSp2 s).length ≤ 3 ∧
    ((splitSp2 s).length = 3 ↔ 2 ≤ s.count 32) := by
  have hcount : ∀ (a t : List Nat), 32 ∉ a →
      (a ++ 32 :: t).count 32 = t.count 32 + 1 := by
    intro a t ha
    rw [List.count_append, List.count_cons, List.count_eq_zero.mpr ha]
    simp
  rcases breakAtSp_cases s with ⟨hmem, heq⟩ | ⟨a, t, hs, hmem, heq⟩
  · rw [splitSp2, heq]
    have : s.count 32 = 0 := List.count_eq_zero.mpr hmem
    simp [this]
  · rw [splitSp2, heq]
    simp only []
    rcases breakAtSp_cases t with ⟨hmem2, heq2⟩ | ⟨b, u, ht, hmem2, heq2⟩
    · rw [heq2]
      have h1 : s.count 32 = 1 := by
        rw [hs, hcount a t hmem, List.count_eq_zero.mpr hmem2]
      simp [h1]
    · rw [heq2]
      have h1 : s.count 32 = t.count 32 + 1 := by rw [hs, hcount a t hmem]
      have h2 : t.count 32 = u.count 32 + 1 := by rw [ht, hcount b u hmem2]
      simp
      omega

/-- A colon-free list is not split by `partition(":")`. -/
theorem partitionColon_no_colon : ∀ (l : List Nat), 58 ∉ l →
    partitionColon l = (l, []) := by
  intro l
  induction l with
  | nil => intro _; rfl
  | cons c cs ih =>
    intro h
    simp only [List.mem_cons, not_or] at h
    rw [partitionColon, if_neg (fun hc => h.1 hc.symm), ih h.2]

/-- `partition(":")` splits at the first colon. -/
theorem partitionColon_split : ∀ (nm vl : List Nat), 58 ∉ nm →
    partitionColon (nm ++ 58 :: vl) = (nm, vl) := by
  intro nm
  induction nm with
  | nil => intro vl _; simp [partitionColon]
  | cons c cs ih =>
    intro vl h
    simp only [List.mem_cons, not_or] at h
    rw [List.cons_append, partitionColon,
      if_neg (fun hc => h.1 hc.symm), ih vl h.2]

/-- Stripping ignores a fully-whitespace suffix. -/
theorem stripWith_append_ws (p : Nat → Bool) (x w : List Nat)
    (hw : ∀ c ∈ w, p c = true) : stripWith p (x ++ w) = stripWith p x := by
  have hall : ∀ (m : List Nat), (∀ c ∈ m, p c = true) → m.dropWhile p = [] := by
    intro m hm
    induction m with
    | nil => rfl
    | cons a as ih =>
      rw [List.dropWhile_cons, hm a (List.mem_cons_self a as)]
      simp only [if_true]
      exact ih (fun c hc => hm c (List.mem_cons_of_mem a hc))
  unfold stripWith
  rw [List.dropWhile_append]
  by_cases hx : (x.dropWhile p).isEmpty
  · rw [if_pos hx, hall w hw]
    have : x.dropWhile p = [] := by
      cases h : x.dropWhile p with
      | nil => rfl
      | cons a as => rw [h] at hx; simp [List.isEmpty] at hx
    rw [this]
  · rw [if_neg hx, List.reverse_append, List.dropWhile_append,
      if_pos (by rw [hall w.reverse (fun c hc => hw c (List.mem_reverse.mp hc))]; rfl)]

/-- The line terminator is whitespace for `str.strip`. -/
theorem strStrip_append_crlf (x : List Nat) :
    strStrip (x ++ [13, 10]) = strStrip x :=
  stripWith_append_ws isStrSpace x [13, 10] (by decide)

/-- A header line followed by CRLF forms a proper `readline` line. -/
theorem lineOk_append_crlf {line : List Nat} (h : 10 ∉ line) :
    lineOk (line ++ [13, 10]) := by
  refine ⟨by simp, ?_, ?_⟩
  · rw [show (line ++ [13, 10] : List Nat) = (line ++ [13]) ++ [10] by simp]
    simp [List.getLast?_concat]
  · rw [show (line ++ [13, 10] : List Nat) = (line ++ [13]) ++ [10] by simp,
      List.dropLast_concat]
    simp only [List.mem_append, List.mem_singleton, not_or]
    exact ⟨h, by omega⟩

/-- What `parse_request` does past a first line ending in CRLF: split the
stripped line with `split(" ", 2)` and demand exactly three parts. -/
theorem parse_request_line (line rest : List Nat) (h10 : 10 ∉ line) :
    parse_request ((line ++ [13, 10]) ++ rest) =
      match splitSp2 (strStrip line) with
      | [m, p, v] =>
        (match parseHeaders rest [] with
          | (hdrs, rest') => .ok (⟨m, p, v, hdrs⟩, rest'))
      | _ => .error .valueError := by
  rw [parse_request, readline_exact _ (lineOk_append_crlf h10) rest]
  simp only []
  rw [if_neg (by simp : ¬(line ++ [13, 10] : List Nat) = []),
    strStrip_append_crlf]

/-- C7, counterexample.  The claim says any request line not consisting of
exactly three tokens separated by exactly two spaces is malformed; the code
splits with `split(" ", 2)`, so `GET /path HTTP/1.1 extra` — three spaces —
is accepted, with the third token absorbing the excess. -/
theorem request_line_extra_spaces_accepted :
    parse_request [71, 69, 84, 32, 47, 112, 97, 116, 104, 32, 72, 84, 84, 80,
        47, 49, 46, 49, 32, 101, 120, 116, 114, 97, 13, 10, 13, 10] =
      .ok (⟨[71, 69, 84], [47, 112, 97, 116, 104],
        [72, 84, 84, 80, 47, 49, 46, 49, 32, 101, 120, 116, 114, 97], []⟩,
        []) := by
  simp [parse_request, parseHeaders, readline, strStrip, stripWith, isStrSpace,
    splitSp2, splitSp2.breakAtSp, partitionColon, lowerStr, lowerChar, dictSet,
    dictGet]

/-- C7, amended.  An empty read fails with a connection-closed error; the
stripped request line is split on single spaces with `maxsplit = 2`, giving
at most three tokens — exactly three iff the line holds at least two spaces,
with the third token absorbing any further spaces; three tokens are accepted
as method, target and version, any other count is a malformed-request
error. -/
theorem request_line_split_rule :
    ∀ (line rest : List Nat), 10 ∉ line →
    parse_request [] = .error .connectionError ∧
    (splitSp2 (strStrip line)).length ≤ 3 ∧
    ((splitSp2 (strStrip line)).length = 3 ↔
      2 ≤ (strStrip line).count 32) ∧
    (∀ m p v, splitSp2 (strStrip line) = [m, p, v] →
      parse_request ((line ++ [13, 10]) ++ rest) =
        (match parseHeaders rest [] with
          | (hdrs, rest') => .ok (⟨m, p, v, hdrs⟩, rest'))) ∧
    ((splitSp2 (strStrip line)).length ≠ 3 →
      parse_request ((line ++ [13, 10]) ++ rest) = .error .valueError) := by
  intro line rest h10
  obtain ⟨hle, hiff⟩ := splitSp2_length (strStrip line)
  refine ⟨rfl, hle, hiff, ?_, ?_⟩
  · intro m p v hsp
    rw [parse_request_line line rest h10, hsp]
  · intro hlen
    rw [parse_request_line line rest h10]
    rcases hsp : splitSp2 (strStrip line) with _ | ⟨a, _ | ⟨b, _ | ⟨c, tl⟩⟩⟩
    · rfl
    · rfl
    · rfl
    · cases tl with
      | nil => rw [hsp] at hlen; simp at hlen
      | cons e es => rfl

/-- C7, witness: an EOF read is a connection-closed error, and the one-token
line `GET` is malformed. -/
theorem request_line_split_rule_witness :
    parse_request [] = .error .connectionError ∧
    parse_request (([71, 69, 84] ++ [13, 10]) ++ []) = .error .valueError :=
  ⟨(request_line_split_rule [71, 69, 84] [] (by decide)).1,
    (request_line_split_rule [71, 69, 84] [] (by decide)).2.2.2.2 (by decide)⟩

/-- One header-loop step on a colon-less line: the whole trimmed lower-cased
line becomes the name, the value is empty. -/
theorem parseHeaders_step_no_colon (line rest : List Nat)
    (d : List (List Nat × List Nat)) (h10 : 10 ∉ line) (hne : line ≠ [])
    (hcolon : 58 ∉ line) :
    parseHeaders ((line ++ [13, 10]) ++ rest) d =
      parseHeaders rest (dictSet d (lowerStr (strStrip line)) []) := by
  have hterm : ¬((line ++ [13, 10] : List Nat) = [13, 10] ∨
      (line ++ [13, 10] : List Nat) = [10] ∨
      (line ++ [13, 10] : List Nat) = []) := by
    push_neg
    refine ⟨?_, ?_, by simp⟩
    · intro h
      have := congrArg List.length h
      simp at this
      exact hne this
    · intro h
      have := congrArg List.length h
      simp at this
  rw [parseHeaders, readline_exact _ (lineOk_append_crlf h10) rest]
  simp only []
  rw [dif_neg hterm]
  have hnc : 58 ∉ line ++ [13, 10] := by
    simp only [List.mem_append, not_or]
    exact ⟨hcolon, by decide⟩
  rw [partitionColon_no_colon _ hnc]
  simp only []
  rw [strStrip_append_crlf]
  rfl

/-- One header-loop step on a line with a colon: split at the first colon,
name trimmed and lower-cased, value trimmed. -/
theorem parseHeaders_step_colon (nm vl rest : List Nat)
    (d : List (List Nat × List Nat)) (h10 : 10 ∉ nm ++ 58 :: vl)
    (hnm : 58 ∉ nm) :
    parseHeaders (((nm ++ 58 :: vl) ++ [13, 10]) ++ rest) d =
      parseHeaders rest (dictSet d (lowerStr (strStrip nm)) (strStrip vl)) := by
  have hne : nm ++ 58 :: vl ≠ [] := by simp
  have hterm : ¬(((nm ++ 58 :: vl) ++ [13, 10] : List Nat) = [13, 10] ∨
      ((nm ++ 58 :: vl) ++ [13, 10] : List Nat) = [10] ∨
      ((nm ++ 58 :: vl) ++ [13, 10] : List Nat) = []) := by
    push_neg
    refine ⟨?_, ?_, by simp⟩
    · intro h
      have := congrArg List.length h
      simp at this
      omega
    · intro h
      have := congrArg List.length h
      simp at this
      omega
  rw [parseHeaders, readline_exact _ (lineOk_append_crlf h10) rest]
  simp only []
  rw [dif_neg hterm]
  have hform : (nm ++ 58 :: vl) ++ [13, 10] = nm ++ 58 :: (vl ++ [13, 10]) := by
    simp
  rw [hform, partitionColon_split nm (vl ++ [13, 10]) hnm]
  simp only []
  rw [strStrip_append_crlf]

/-- C8, counterexample.  The claim says a header line without `:` is a
malformed-request failure; the code uses `partition(":")`, which returns the
whole line as the name and an empty value, so `Foo\r\n` is silently accepted
as header `foo` with empty value. -/
theorem header_line_without_colon_accepted :
    parse_request [71, 69, 84, 32, 47, 32, 72, 84, 84, 80, 47, 49, 46, 49,
        13, 10, 70, 111, 111, 13, 10, 13, 10] =
      .ok (⟨[71, 69, 84], [47], [72, 84, 84, 80, 47, 49, 46, 49],
        [([102, 111, 111], [])]⟩, []) := by
  simp [parse_request, parseHeaders, readline, strStrip, stripWith, isStrSpace,
    splitSp2, splitSp2.breakAtSp, partitionColon, lowerStr, lowerChar, dictSet,
    dictGet]

/-- C8, amended.  Header lines are split at the first `:` with the name
trimmed and lower-cased and the value trimmed; a line with no `:` is *not*
rejected — the whole trimmed lower-cased line becomes the header name with an
empty value. -/
theorem header_line_rule :
    ∀ (line rest : List Nat) (d : List (List Nat × List Nat)),
    10 ∉ line → line ≠ [] →
    (58 ∉ line →
      parseHeaders ((line ++ [13, 10]) ++ rest) d =
        parseHeaders rest (dictSet d (lowerStr (strStrip line)) [])) ∧
    (∀ nm vl, line = nm ++ 58 :: vl → 58 ∉ nm →
      parseHeaders ((line ++ [13, 10]) ++ rest) d =
        parseHeaders rest (dictSet d (lowerStr (strStrip nm)) (strStrip vl))) := by
  intro line rest d h10 hne
  constructor
  · intro hcolon
    exact parseHeaders_step_no_colon line rest d h10 hne hcolon
  · intro nm vl hsplit hnm
    subst hsplit
    exact parseHeaders_step_colon nm vl rest d h10 hnm

/-- C8, witness: the colon-less line `Foo` is stored as header name `foo`
with empty value, and `Host: x` splits at the colon. -/
theorem header_line_rule_witness :
    parseHeaders (([70, 111, 111] ++ [13, 10]) ++ [13, 10]) [] =
      parseHeaders [13, 10]
        (dictSet [] (lowerStr (strStrip [70, 111, 111])) []) ∧
    parseHeaders (([72, 111, 115, 116, 58, 32, 120] ++ [13, 10]) ++ [13, 10]) [] =
      parseHeaders [13, 10]
        (dictSet [] (lowerStr (strStrip [72, 111, 115, 116]))
          (strStrip [32, 120])) :=
  ⟨(header_line_rule [70, 111, 111] [13, 10] [] (by decide) (by decide)).1
      (by decide),
    (header_line_rule [72, 111, 115, 116, 58, 32, 120] [13, 10] []
        (by decide) (by decide)).2 [72, 111, 115, 116] [32, 120] (by decide)
      (by decide)⟩

/-- A list whose first and last characters are not whitespace is unchanged
by stripping. -/
theorem stripWith_no_ws_ends (p : Nat → Bool) (l : List Nat)
    (h1 : ∀ c, l.head? = some c → p c = false)
    (h2 : ∀ c, l.getLast? = some c → p c = false) : stripWith p l = l := by
  unfold stripWith
  have hd : l.dropWhile p = l := by
    cases l with
    | nil => rfl
    | cons a as =>
      rw [List.dropWhile_cons, h1 a rfl]
      simp
  rw [hd]
  have hr : l.reverse.dropWhile p = l.reverse := by
    cases hl : l.reverse with
    | nil => rfl
    | cons a as =>
      have hlast : l.getLast? = some a := by
        rw [← List.head?_reverse, hl]
        rfl
      rw [List.dropWhile_cons, h2 a hlast]
      simp
  rw [hr, List.reverse_reverse]

/-- `split(" ", 2)` on a line of exactly three space-free tokens. -/
theorem splitSp2_three (m p v : List Nat) (hm : 32 ∉ m) (hp : 32 ∉ p) :
    splitSp2 (m ++ 32 :: (p ++ 32 :: v)) = [m, p, v] := by
  rw [splitSp2, breakAtSp_split m _ hm]
  simp only []
  rw [breakAtSp_split p v hp]

/-- `find?` keeps a match found in the prefix. -/
theorem find?_append_some {α : Type} (p : α → Bool) :
    ∀ (l₁ l₂ : List α) (a : α), l₁.find? p = some a →
    (l₁ ++ l₂).find? p = some a := by
  intro l₁ l₂ a h
  induction l₁ with
  | nil => exact absurd h (by simp)
  | cons b bs ih =>
    cases hpb : p b with
    | true =>
      rw [List.find?_cons_of_pos bs hpb] at h
      rw [List.cons_append, List.find?_cons_of_pos _ hpb]
      exact h
    | false =>
      rw [List.find?_cons_of_neg bs (by simp [hpb])] at h
      rw [List.cons_append, List.find?_cons_of_neg _ (by simp [hpb])]
      exact ih h

/-- `find?` skips a prefix holding no match. -/
theorem find?_append_none {α : Type} (p : α → Bool) :
    ∀ (l₁ l₂ : List α), l₁.find? p = none →
    (l₁ ++ l₂).find? p = l₂.find? p := by
  intro l₁ l₂ h
  induction l₁ with
  | nil => rfl
  | cons a as ih =>
    cases hpa : p a with
    | true =>
      rw [List.find?_cons_of_pos as hpa] at h
      exact absurd h (by simp)
    | false =>
      rw [List.find?_cons_of_neg as (by simp [hpa])] at h
      rw [List.cons_append, List.find?_cons_of_neg _ (by simp [hpa])]
      exact ih h

/-- Looking up `k` after the last-wins update at `k` sees the update when the
key was present. -/
theorem find?_update_same (k v : List Nat) :
    ∀ (d : List (List Nat × List Nat)),
    (d.map (fun q => if q.1 = k then (k, v) else q)).find?
        (fun q => q.1 = k) =
      (d.find? (fun q => q.1 = k)).map (fun _ => (k, v)) := by
  intro d
  induction d with
  | nil => rfl
  | cons q qs ih =>
    by_cases hq : q.1 = k
    · rw [List.map_cons, if_pos hq,
        List.find?_cons_of_pos _ (by simp),
        List.find?_cons_of_pos _ (by simp [hq])]
      rfl
    · rw [List.map_cons, if_neg hq,
        List.find?_cons_of_neg _ (by simp [hq]),
        List.find?_cons_of_neg _ (by simp [hq])]
      exact ih

/-- Looking up another key is unaffected by the update at `k`. -/
theorem find?_update_other {k k' : List Nat} (v : List Nat) (hkk : k' ≠ k) :
    ∀ (d : List (List Nat × List Nat)),
    (d.map (fun q => if q.1 = k then (k, v) else q)).find?
        (fun q => q.1 = k') =
      d.find? (fun q => q.1 = k') := by
  intro d
  induction d with
  | nil => rfl
  | cons q qs ih =>
    by_cases hq : q.1 = k
    · rw [List.map_cons, if_pos hq,
        List.find?_cons_of_neg _ (by simp; exact fun hh => hkk hh.symm),
        List.find?_cons_of_neg _ (by simp [hq]; exact fun hh => hkk hh.symm)]
      exact ih
    · by_cases hq' : q.1 = k'
      · rw [List.map_cons, if_neg hq,
          List.find?_cons_of_pos _ (by simp [hq']),
          List.find?_cons_of_pos _ (by simp [hq'])]
      · rw [List.map_cons, if_neg hq,
          List.find?_cons_of_neg _ (by simp [hq']),
          List.find?_cons_of_neg _ (by simp [hq'])]
        exact ih

/-- `headers[k] = v` makes lookup of `k` see `v`. -/
theorem dictGet_dictSet_self (d : List (List Nat × List Nat))
    (k v : List Nat) : dictGet (dictSet d k v) k = some v := by
  by_cases h : d.any (fun q => q.1 = k)
  · rw [dictSet, if_pos h, dictGet, find?_update_same]
    obtain ⟨x, hx, hxk⟩ := List.any_eq_true.mp h
    have hsome : (d.find? (fun q => q.1 = k)).isSome :=
      List.find?_isSome.mpr ⟨x, hx, hxk⟩
    cases hf : d.find? (fun q => q.1 = k) with
    | none => rw [hf] at hsome; simp at hsome
    | some q => rfl
  · have hall : ∀ x ∈ d, ¬ x.1 = k := by
      intro x hx hxk
      exact h (List.any_eq_true.mpr ⟨x, hx, by simpa using hxk⟩)
    rw [dictSet, if_neg h, dictGet,
      find?_append_none _ d [(k, v)]
        (List.find?_eq_none.mpr (fun x hx => by simpa using hall x hx)),
      List.find?_cons_of_pos _ (by simp)]

/-- `headers[k] = v` leaves lookup of any other key unchanged. -/
theorem dictGet_dictSet_other (d : List (List Nat × List Nat))
    {k k' : List Nat} (v : List Nat) (hkk : k' ≠ k) :
    dictGet (dictSet d k v) k' = dictGet d k' := by
  by_cases h : d.any (fun q => q.1 = k)
  · rw [dictSet, if_pos h, dictGet, find?_update_other v hkk, dictGet]
  · rw [dictSet, if_neg h, dictGet, dictGet]
    cases hf : d.find? (fun q => q.1 = k') with
    | some q =>
      rw [find?_append_some _ d [(k, v)] q hf]
    | none =>
      rw [find?_append_none _ d [(k, v)] hf,
        List.find?_cons_of_neg _ (by simp; exact fun hh => hkk hh.symm)]
      rfl

/-- Updating an existing key keeps the key list unchanged. -/
theorem dictSet_keys_mem (d : List (List Nat × List Nat)) (k v : List Nat)
    (h : k ∈ d.map Prod.fst) :
    (dictSet d k v).map Prod.fst = d.map Prod.fst := by
  have hany : d.any (fun q => q.1 = k) = true := by
    obtain ⟨q, hq, hq1⟩ := List.mem_map.mp h
    exact List.any_eq_true.mpr ⟨q, hq, by simpa using hq1⟩
  rw [dictSet, if_pos hany, List.map_map]
  apply List.map_congr_left
  intro q hq
  by_cases hqk : q.1 = k
  · simp [Function.comp, hqk]
  · simp [Function.comp, hqk]

/-- Inserting a fresh key appends it to the key list. -/
theorem dictSet_keys_new (d : List (List Nat × List Nat)) (k v : List Nat)
    (h : k ∉ d.map Prod.fst) :
    (dictSet d k v).map Prod.fst = d.map Prod.fst ++ [k] := by
  have hany : ¬ d.any (fun q => q.1 = k) = true := by
    intro ha
    obtain ⟨q, hq, hq1⟩ := List.any_eq_true.mp ha
    exact h (List.mem_map.mpr ⟨q, hq, by simpa using hq1⟩)
  rw [dictSet, if_neg hany, List.map_append]
  rfl

/-- Repeated dict assignment lists keys in first-occurrence order: the keys
of the fold are the starting keys followed by the first occurrences of the
new keys. -/
theorem foldl_dictSet_keys :
    ∀ (ps : List (List Nat × List Nat)) (d : List (List Nat × List Nat)),
    (ps.foldl (fun d q => dictSet d q.1 q.2) d).map Prod.fst =
      d.map Prod.fst ++
        dedupFirst ((ps.map Prod.fst).filter
          (fun k => ¬ k ∈ d.map Prod.fst)) := by
  intro ps
  induction ps with
  | nil => intro d; simp [dedupFirst]
  | cons q qs ih =>
    intro d
    simp only [List.foldl_cons, List.map_cons, List.filter_cons]
    by_cases hq : q.1 ∈ d.map Prod.fst
    · rw [if_neg (by simpa using hq), ih (dictSet d q.1 q.2),
        dictSet_keys_mem d q.1 q.2 hq]
    · rw [if_pos (by simpa using hq), ih (dictSet d q.1 q.2),
        dictSet_keys_new d q.1 q.2 hq, dedupFirst, List.append_assoc]
      congr 2
      rw [List.singleton_append]
      congr 1
      rw [List.filter_filter]
      congr 1
      apply List.filter_congr
      intro x hx
      by_cases h1 : x ∈ d.map Prod.fst <;> by_cases h2 : x = q.1 <;>
        simp [h1, h2, List.mem_append]

/-- The last-wins fold over an arbitrary accumulator. -/
theorem lastValue_aux (k : List Nat) :
    ∀ (qs : List (List Nat × List Nat)) (acc : Option (List Nat)),
    qs.foldl (fun a q => if q.1 = k then some q.2 else a) acc =
      match qs.foldl (fun a q => if q.1 = k then some q.2 else a) none with
      | some v => some v
      | none => acc := by
  intro qs
  induction qs with
  | nil => intro acc; rfl
  | cons q qs ih =>
    intro acc
    simp only [List.foldl_cons]
    rw [ih (if q.1 = k then some q.2 else acc),
      ih (if q.1 = k then some q.2 else none)]
    cases hF : List.foldl (fun a q => if q.1 = k then some q.2 else a) none qs with
    | some v => rfl
    | none =>
      simp only []
      by_cases hq : q.1 = k
      · rw [if_pos hq, if_pos hq]
      · rw [if_neg hq, if_neg hq]

/-- Peeling the first pair off the last-wins lookup. -/
theorem lastValue_cons (q : List Nat × List Nat)
    (qs : List (List Nat × List Nat)) (k : List Nat) :
    lastValue (q :: qs) k =
      match lastValue qs k with
      | some v => some v
      | none => if q.1 = k then some q.2 else none := by
  show (q :: qs).foldl (fun a q => if q.1 = k then some q.2 else a) none = _
  rw [List.foldl_cons]
  exact lastValue_aux k qs (if q.1 = k then some q.2 else none)

/-- Repeated dict assignment is last-wins: the fold's lookup of `k` is the
value of the last pair carrying `k`, else whatever the starting dict held. -/
theorem foldl_dictSet_lastValue :
    ∀ (ps : List (List Nat × List Nat)) (d : List (List Nat × List Nat))
      (k : List Nat),
    dictGet (ps.foldl (fun d q => dictSet d q.1 q.2) d) k =
      match lastValue ps k with
      | some v => some v
      | none => dictGet d k := by
  intro ps
  induction ps with
  | nil => intro d k; rfl
  | cons q qs ih =>
    intro d k
    simp only [List.foldl_cons]
    rw [ih (dictSet d q.1 q.2) k, lastValue_cons]
    cases hlv : lastValue qs k with
    | some v => rfl
    | none =>
      simp only []
      by_cases hq : q.1 = k
      · subst hq
        rw [if_pos rfl, dictGet_dictSet_self]
      · rw [if_neg hq, dictGet_dictSet_other d q.2 (fun hh => hq hh.symm)]

/-- The header loop over the raw lines of well-formed `(name, value)` pairs
terminated by an empty line: it builds exactly the repeated-assignment dict
and stops at the empty line. -/
theorem parseHeaders_build :
    ∀ (pairs : List (List Nat × List Nat)) (d : List (List Nat × List Nat))
      (extra : List Nat),
    (∀ q ∈ pairs, 10 ∉ q.1 ∧ 58 ∉ q.1 ∧ 10 ∉ q.2) →
    parseHeaders ((pairs.map headerLineRaw).flatten ++ ([13, 10] ++ extra)) d =
      (pairs.foldl
        (fun d q => dictSet d (lowerStr (strStrip q.1)) (strStrip q.2)) d,
        extra) := by
  intro pairs
  induction pairs with
  | nil =>
    intro d extra _
    simp only [List.map_nil, List.flatten_nil, List.nil_append,
      List.foldl_nil]
    rw [parseHeaders, readline_exact [13, 10] (by decide) extra]
    simp only []
    rw [dif_pos (Or.inl trivial)]
  | cons q qs ih =>
    intro d extra hall
    obtain ⟨h1, h2, h3⟩ := hall q (List.mem_cons_self q qs)
    have hsrc : (((q :: qs).map headerLineRaw).flatten ++ ([13, 10] ++ extra)) =
        ((q.1 ++ 58 :: q.2) ++ [13, 10]) ++
          ((qs.map headerLineRaw).flatten ++ ([13, 10] ++ extra)) := by
      simp [headerLineRaw, List.append_assoc]
    have h10 : 10 ∉ q.1 ++ 58 :: q.2 := by
      simp only [List.mem_append, List.mem_cons, not_or]
      exact ⟨h1, by omega, h3⟩
    rw [hsrc, parseHeaders_step_colon q.1 q.2 _ d h10 h2,
      ih _ extra (fun q' hq' => hall q' (List.mem_cons_of_mem q hq'))]
    rfl

/-- C6, counterexample.  The claim says duplicate header names collapse to
last-wins for framing headers only, so the insertion-ordered name list of
other headers is preserved; the code stores every header in one dict with
plain assignment, so the duplicated non-framing header `X-A` also collapses
to a single last-wins entry. -/
theorem duplicate_nonframing_header_collapses :
    parse_request [71, 69, 84, 32, 47, 32, 72, 84, 84, 80, 47, 49, 46, 49,
        13, 10, 88, 45, 65, 58, 32, 49, 13, 10, 88, 45, 65, 58, 32, 50, 13,
        10, 13, 10] =
      .ok (⟨[71, 69, 84], [47], [72, 84, 84, 80, 47, 49, 46, 49],
        [([120, 45, 97], [50])]⟩, []) ∧
    ([([120, 45, 97], [50])] : List (List Nat × List Nat)).length ≠ 2 := by
  constructor
  · simp [parse_request, parseHeaders, readline, strStrip, stripWith,
      isStrSpace, splitSp2, splitSp2.breakAtSp, partitionColon, lowerStr,
      lowerChar, dictSet, dictGet]
  · decide

/-- C6, amended.  For a request head whose tokens are whitespace-free and
whose raw header lines are well formed, `parse_request` followed by
`forward_request_headers` is a faithful round trip of the header block: the
serialized names are the client's names lower-cased and trimmed in
first-occurrence order, the values are trimmed, and duplicate names — all of
them, not only framing headers — collapse to the last value sent. -/
theorem header_roundtrip :
    ∀ (m p v : List Nat) (pairs : List (List Nat × List Nat))
      (extra : List Nat),
    m ≠ [] → p ≠ [] → v ≠ [] →
    (∀ c ∈ m, isStrSpace c = false) → (∀ c ∈ p, isStrSpace c = false) →
    (∀ c ∈ v, isStrSpace c = false) →
    (∀ q ∈ pairs, 10 ∉ q.1 ∧ 58 ∉ q.1 ∧ 10 ∉ q.2) →
    parse_request (buildRequest m p v pairs ++ extra) =
      .ok (⟨m, p, v, normalizeHeaders pairs⟩, extra) ∧
    forward_request_headers ⟨m, p, v, normalizeHeaders pairs⟩ =
      m ++ [32] ++ p ++ [32] ++ v ++ [13, 10] ++
        ((normalizeHeaders pairs).map
          (fun q => q.1 ++ [58, 32] ++ q.2 ++ [13, 10])).flatten ++ [13, 10] ∧
    (normalizeHeaders pairs).map Prod.fst =
      dedupFirst (pairs.map (fun q => lowerStr (strStrip q.1))) ∧
    (∀ k, dictGet (normalizeHeaders pairs) k =
      lastValue (pairs.map
        (fun q => (lowerStr (strStrip q.1), strStrip q.2))) k) := by
  intro m p v pairs extra hm hp hv hmw hpw hvw hpairs
  have hnorm : normalizeHeaders pairs =
      (pairs.map (fun q => (lowerStr (strStrip q.1), strStrip q.2))).foldl
        (fun d q => dictSet d q.1 q.2) [] := by
    rw [normalizeHeaders, List.foldl_map]
  refine ⟨?_, rfl, ?_, ?_⟩
  · have hshape : buildRequest m p v pairs ++ extra =
        ((m ++ 32 :: (p ++ 32 :: v)) ++ [13, 10]) ++
          ((pairs.map headerLineRaw).flatten ++ ([13, 10] ++ extra)) := by
      simp [buildRequest, List.append_assoc]
    have h10line : 10 ∉ m ++ 32 :: (p ++ 32 :: v) := by
      simp only [List.mem_append, List.mem_cons, not_or]
      refine ⟨fun hc => absurd (hmw 10 hc) (by decide), by omega,
        fun hc => absurd (hpw 10 hc) (by decide), by omega,
        fun hc => absurd (hvw 10 hc) (by decide)⟩
    have hstrip : strStrip (m ++ 32 :: (p ++ 32 :: v)) =
        m ++ 32 :: (p ++ 32 :: v) := by
      apply stripWith_no_ws_ends
      · intro c hc
        cases m with
        | nil => exact absurd rfl hm
        | cons a as =>
          rw [List.cons_append] at hc
          simp only [List.head?_cons, Option.some.injEq] at hc
          subst hc
          exact hmw a (List.mem_cons_self a as)
      · intro c hc
        have hform2 : m ++ 32 :: (p ++ 32 :: v) =
            (m ++ [32] ++ p ++ [32]) ++ v := by
          simp [List.append_assoc]
        rw [hform2, List.getLast?_append_of_ne_nil _ hv] at hc
        exact hvw c (List.mem_of_mem_getLast? hc)
    have hm32 : 32 ∉ m := fun hc => absurd (hmw 32 hc) (by decide)
    have hp32 : 32 ∉ p := fun hc => absurd (hpw 32 hc) (by decide)
    rw [hshape, parse_request_line _ _ h10line, hstrip, splitSp2_three m p v hm32 hp32]
    simp only []
    rw [parseHeaders_build pairs [] extra hpairs]
    rfl
  · rw [hnorm, foldl_dictSet_keys]
    simp only [List.map_nil, List.map_map, List.nil_append]
    have hfilter : ∀ (l : List (List Nat)),
        l.filter (fun k => ¬ k ∈ ([] : List (List Nat))) = l := by
      intro l
      induction l with
      | nil => rfl
      | cons a as ih => rw [List.filter_cons, if_pos (by simp), ih]
    rw [hfilter]
    congr 1
  · intro k
    rw [hnorm, foldl_dictSet_lastValue]
    cases lastValue (pairs.map
        (fun q => (lowerStr (strStrip q.1), strStrip q.2))) k with
    | some v => rfl
    | none => rfl

/-- C6, witness: `GET / HTTP/1.1` with headers `X-A: 1` then `X-A: 2` parses
to the single collapsed header `x-a: 2`. -/
theorem header_roundtrip_witness :
    parse_request (buildRequest [71, 69, 84] [47] [72]
        [([88, 45, 65], [49]), ([88, 45, 65], [50])] ++ []) =
      .ok (⟨[71, 69, 84], [47], [72],
        normalizeHeaders [([88, 45, 65], [49]), ([88, 45, 65], [50])]⟩, []) ∧
    (normalizeHeaders [([88, 45, 65], [49]), ([88, 45, 65], [50])]).map
        Prod.fst =
      dedupFirst ([([88, 45, 65], [49]), ([88, 45, 65], [50])].map
        (fun q => lowerStr (strStrip q.1))) :=
  ⟨(header_roundtrip [71, 69, 84] [47] [72]
      [([88, 45, 65], [49]), ([88, 45, 65], [50])] [] (by decide) (by decide)
      (by decide) (by decide) (by decide) (by decide) (by decide)).1,
    (header_roundtrip [71, 69, 84] [47] [72]
      [([88, 45, 65], [49]), ([88, 45, 65], [50])] [] (by decide) (by decide)
      (by decide) (by decide) (by decide) (by decide) (by decide)).2.2.1⟩

/-- C1, counterexample.  The claim says a connect exceeding the connect
deadline is signalled as a connection error and answered 502.  In the code,
`asyncio.wait_for` raises a timeout error which `acquire_connection` does not
convert, so `handle_client`'s first `except` arm answers 504, not 502. -/
theorem connect_timeout_answers_504_not_502 :
    (acquire_connection .timedOut (.ok ()) false).2 = .error .timeoutError ∧
    (handle_client (.ok ⟨[], [], [], []⟩) .timedOut (.ok ()) false).1 =
      some (504, "Gateway Timeout") ∧
    (504 : Nat) ≠ 502 :=
  ⟨rfl, rfl, by decide⟩

/-- C1, amended.  For every request whose upstream connect exceeds the
connect deadline, `acquire_connection` releases the admission slot and
propagates the timeout error unchanged, and `handle_client` responds
504 Gateway Timeout (not 502). -/
theorem connect_timeout_maps_to_504 :
    ∀ (body : Except PyExc Unit) (cr : Bool) (req : HttpRequest),
    acquire_connection .timedOut body cr =
      ([.slotAcquired, .slotReleased], .error .timeoutError) ∧
    handle_client (.ok req) .timedOut body cr =
      (some (504, "Gateway Timeout"), [.slotAcquired, .slotReleased]) :=
  fun _ _ _ => ⟨rfl, rfl⟩

set_option maxRecDepth 8192 in
/-- C2.  Every failure escaping the handler body is classified by kind into
exactly one synthesized response — timeout → 504, connection error → 502,
anything else → 500 — and the response carries
`Content-Type: text/html; charset=utf-8`, a `Content-Length` equal to the
UTF-8 byte length of its HTML body, and `Connection: close`. -/
theorem handler_error_taxonomy :
    ∀ (req : HttpRequest) (co : ConnectOutcome) (body : Except PyExc Unit)
      (cr : Bool) (e : PyExc),
    (handle_client (.error e) co body cr).1 =
      some (errorStatus e, errorMessage e) ∧
    ((acquire_connection co body cr).2 = .error e →
      (handle_client (.ok req) co body cr).1 =
        some (errorStatus e, errorMessage e)) ∧
    ((acquire_connection co body cr).2 = .ok () →
      (handle_client (.ok req) co body cr).1 = none) ∧
    errorStatus .timeoutError = 504 ∧ errorStatus .connectionError = 502 ∧
    errorStatus .valueError = 500 ∧ errorStatus .osError = 500 ∧
    errorStatus .otherError = 500 ∧
    send_error (errorStatus e) (errorMessage e) =
      errorHead (errorStatus e) (errorMessage e) ++
        errorBody (errorStatus e) (errorMessage e) ∧
    strHasLine (errorHead (errorStatus e) (errorMessage e))
      "Content-Type: text/html; charset=utf-8\r\n" ∧
    strHasLine (errorHead (errorStatus e) (errorMessage e))
      ("Content-Length: " ++
        toString (errorBody (errorStatus e) (errorMessage e)).utf8ByteSize ++
        "\r\n") ∧
    strHasLine (errorHead (errorStatus e) (errorMessage e))
      "Connection: close\r\n" := by
  intro req co body cr e
  refine ⟨rfl, ?_, ?_, rfl, rfl, rfl, rfl, rfl, rfl, ?_, ?_, ?_⟩
  · intro h
    rcases hq : acquire_connection co body cr with ⟨trace, res⟩
    rw [hq] at h
    simp only [Prod.snd] at h
    subst h
    simp [handle_client, hq]
  · intro h
    rcases hq : acquire_connection co body cr with ⟨trace, res⟩
    rw [hq] at h
    simp only [Prod.snd] at h
    subst h
    simp [handle_client, hq]
  · cases e with
    | timeoutError =>
      exact ⟨"HTTP/1.1 504 Gateway Timeout\r\n",
        "Content-Length: 54\r\nConnection: close\r\n\r\n", by decide⟩
    | connectionError =>
      exact ⟨"HTTP/1.1 502 Bad Gateway\r\n",
        "Content-Length: 50\r\nConnection: close\r\n\r\n", by decide⟩
    | valueError =>
      exact ⟨"HTTP/1.1 500 Internal Server Error\r\n",
        "Content-Length: 60\r\nConnection: close\r\n\r\n", by decide⟩
    | osError =>
      exact ⟨"HTTP/1.1 500 Internal Server Error\r\n",
        "Content-Length: 60\r\nConnection: close\r\n\r\n", by decide⟩
    | otherError =>
      exact ⟨"HTTP/1.1 500 Internal Server Error\r\n",
        "Content-Length: 60\r\nConnection: close\r\n\r\n", by decide⟩
  · cases e with
    | timeoutError =>
      exact ⟨"HTTP/1.1 504 Gateway Timeout\r\nContent-Type: text/html; charset=utf-8\r\n",
        "Connection: close\r\n\r\n", by decide⟩
    | connectionError =>
      exact ⟨"HTTP/1.1 502 Bad Gateway\r\nContent-Type: text/html; charset=utf-8\r\n",
        "Connection: close\r\n\r\n", by decide⟩
    | valueError =>
      exact ⟨"HTTP/1.1 500 Internal Server Error\r\nContent-Type: text/html; charset=utf-8\r\n",
        "Connection: close\r\n\r\n", by decide⟩
    | osError =>
      exact ⟨"HTTP/1.1 500 Internal Server Error\r\nContent-Type: text/html; charset=utf-8\r\n",
        "Connection: close\r\n\r\n", by decide⟩
    | otherError =>
      exact ⟨"HTTP/1.1 500 Internal Server Error\r\nContent-Type: text/html; charset=utf-8\r\n",
        "Connection: close\r\n\r\n", by decide⟩
  · cases e with
    | timeoutError =>
      exact ⟨"HTTP/1.1 504 Gateway Timeout\r\nContent-Type: text/html; charset=utf-8\r\nContent-Length: 54\r\n",
        "\r\n", by decide⟩
    | connectionError =>
      exact ⟨"HTTP/1.1 502 Bad Gateway\r\nContent-Type: text/html; charset=utf-8\r\nContent-Length: 50\r\n",
        "\r\n", by decide⟩
    | valueError =>
      exact ⟨"HTTP/1.1 500 Internal Server Error\r\nContent-Type: text/html; charset=utf-8\r\nContent-Length: 60\r\n",
        "\r\n", by decide⟩
    | osError =>
      exact ⟨"HTTP/1.1 500 Internal Server Error\r\nContent-Type: text/html; charset=utf-8\r\nContent-Length: 60\r\n",
        "\r\n", by decide⟩
    | otherError =>
      exact ⟨"HTTP/1.1 500 Internal Server Error\r\nContent-Type: text/html; charset=utf-8\r\nContent-Length: 60\r\n",
        "\r\n", by decide⟩

/-- C2, witness: a refused upstream connect escapes as a connection error and
is answered with the 502 response. -/
theorem handler_error_taxonomy_witness :
    (handle_client (.ok ⟨[], [], [], []⟩) .refused (.ok ()) false).1 =
      some (errorStatus .connectionError, errorMessage .connectionError) :=
  (handler_error_taxonomy ⟨[], [], [], []⟩ .refused (.ok ()) false
    .connectionError).2.1 rfl

/-- C5.  `acquire_connection` releases its resources on every exit path:
the admission slot is always released (acquisitions and releases balance,
and the release is the last event); when a connection was opened the writer
close precedes the release and the body's result propagates unchanged even
if the close raises; when the connect failed no close happens, the slot is
still released, and the connect error propagates. -/
theorem acquire_connection_releases :
    ∀ (co : ConnectOutcome) (body : Except PyExc Unit) (cr : Bool),
    (acquire_connection co body cr).1.count .slotAcquired =
      (acquire_connection co body cr).1.count .slotReleased ∧
    (acquire_connection co body cr).1.getLast? = some .slotReleased ∧
    (connectResult co = .ok () →
      acquire_connection co body cr =
        ([.slotAcquired, .connected, .writerClosed, .slotReleased], body)) ∧
    (∀ e, connectResult co = .error e →
      acquire_connection co body cr = ([.slotAcquired, .slotReleased], .error e)) := by
  intro co body cr
  refine ⟨?_, ?_, ?_, ?_⟩
  · cases co <;> cases cr <;> rfl
  · cases co <;> cases cr <;> rfl
  · intro h
    cases co with
    | ok => cases cr <;> rfl
    | timedOut => exact absurd h (by simp [connectResult])
    | refused => exact absurd h (by simp [connectResult])
    | unreachable => exact absurd h (by simp [connectResult])
    | dnsFail => exact absurd h (by simp [connectResult])
  · intro e h
    cases co with
    | ok => exact absurd h (by simp [connectResult])
    | timedOut => simp [connectResult] at h; subst h; cases cr <;> rfl
    | refused => simp [connectResult] at h; subst h; cases cr <;> rfl
    | unreachable => simp [connectResult] at h; subst h; cases cr <;> rfl
    | dnsFail => simp [connectResult] at h; subst h; cases cr <;> rfl

/-- C5, witness: a successful scope with a raising close still ends in the
slot release and propagates the body's own failure. -/
theorem acquire_connection_releases_witness :
    acquire_connection .ok (.error .otherError) true =
      ([.slotAcquired, .connected, .writerClosed, .slotReleased],
        .error .otherError) :=
  (acquire_connection_releases .ok (.error .otherError) true).2.2.1 rfl

/-- One full rotation visits pairwise distinct cursor positions. -/
theorem selections_cycle_nodup (i L : Nat) (hL : 0 < L) :
    (selections i L L).Nodup := by
  unfold selections
  refine List.Nodup.map_on ?_ (List.nodup_range L)
  intro t₁ h₁ t₂ h₂ heq
  rw [List.mem_range] at h₁ h₂
  have h3 : t₁ ≡ t₂ [MOD L] := Nat.ModEq.add_left_cancel' i heq
  calc t₁ = t₁ % L := (Nat.mod_eq_of_lt h₁).symm
    _ = t₂ % L := h3
    _ = t₂ := Nat.mod_eq_of_lt h₂

/-- One full rotation visits every cursor position. -/
theorem selections_cycle_mem {j L : Nat} (i : Nat) (hL : 0 < L) (hj : j < L) :
    j ∈ selections i L L := by
  have hsub : (selections i L L).toFinset ⊆ Finset.range L := by
    intro x hx
    rw [List.mem_toFinset] at hx
    unfold selections at hx
    obtain ⟨t, _, ht⟩ := List.mem_map.mp hx
    rw [Finset.mem_range, ← ht]
    exact Nat.mod_lt _ hL
  have hcard : (selections i L L).toFinset.card = L := by
    rw [List.toFinset_card_of_nodup (selections_cycle_nodup i L hL)]
    unfold selections
    rw [List.length_map, List.length_range]
  have heq : (selections i L L).toFinset = Finset.range L := by
    refine Finset.eq_of_subset_of_card_le hsub ?_
    rw [hcard, Finset.card_range]
  rw [← List.mem_toFinset, heq, Finset.mem_range]
  exact hj

/-- One full rotation selects each position exactly once. -/
theorem selections_cycle_count {j L : Nat} (i : Nat) (hL : 0 < L) (hj : j < L) :
    (selections i L L).count j = 1 :=
  List.count_eq_one_of_mem (selections_cycle_nodup i L hL)
    (selections_cycle_mem i hL hj)

/-- Splitting a run of selections. -/
theorem selections_append (i L n m : Nat) :
    selections i L (n + m) = selections i L n ++ selections (i + n) L m := by
  unfold selections
  rw [List.range_add, List.map_append, List.map_map]
  congr 1
  apply List.map_congr_left
  intro t _
  simp only [Function.comp_apply]
  congr 1
  omega

/-- A partial rotation selects each position at most once. -/
theorem selections_count_le_one {j L : Nat} (i : Nat) (hL : 0 < L) {r : Nat}
    (hr : r ≤ L) : (selections i L r).count j ≤ 1 := by
  have hsub : List.Sublist (selections i L r) (selections i L L) := by
    have h1 : selections i L L = selections i L (r + (L - r)) := by
      rw [Nat.add_sub_cancel' hr]
    rw [h1, selections_append]
    exact List.sublist_append_left _ _
  calc (selections i L r).count j ≤ (selections i L L).count j :=
        hsub.count_le j
    _ ≤ 1 := List.nodup_iff_count_le_one.mp (selections_cycle_nodup i L hL) j

/-- Counts over whole rotations: `q` full cycles contribute exactly `q`. -/
theorem selections_count_cycles {j L : Nat} (i : Nat) (hL : 0 < L) (hj : j < L) :
    ∀ (q r : Nat), (selections i L (q * L + r)).count j =
      q + (selections i L r).count j := by
  intro q
  induction q with
  | zero => intro r; simp
  | succ q ih =>
    intro r
    have h1 : (q + 1) * L + r = (q * L + r) + L := by ring
    rw [h1, selections_append, List.count_append,
      selections_cycle_count _ hL hj, ih r]
    omega

/-- C4.  Round-robin selection is exact: `get_next` returns the upstream at
the cursor and advances the cursor by one modulo `L`; after `N` serialized
calls the cursor has advanced exactly `N` modulo `L`, the returned upstreams
are the ones at cursor positions `i, i+1, …` modulo `L`, and each position is
selected either `⌊N/L⌋` or `⌈N/L⌉` times. -/
theorem round_robin_exact {α : Type} [Inhabited α] :
    ∀ (us : List α) (i N : Nat), 0 < us.length → i < us.length →
    (get_next (⟨us, i⟩ : UpstreamPool α)).1 = us.getD i default ∧
    (get_next (⟨us, i⟩ : UpstreamPool α)).2 = ⟨us, (i + 1) % us.length⟩ ∧
    runNext (⟨us, i⟩ : UpstreamPool α) N =
      ((selections i us.length N).map (fun j => us.getD j default),
        ⟨us, (i + N) % us.length⟩) ∧
    (∀ j, j < us.length →
      (selections i us.length N).count j = N / us.length ∨
      (selections i us.length N).count j =
        (N + us.length - 1) / us.length) := by
  intro us i N hL hi
  have hrun : ∀ (M k : Nat), k < us.length →
      runNext (⟨us, k⟩ : UpstreamPool α) M =
        ((selections k us.length M).map (fun j => us.getD j default),
          ⟨us, (k + M) % us.length⟩) := by
    intro M
    induction M with
    | zero =>
      intro k hk
      simp [runNext, selections, Nat.mod_eq_of_lt hk]
    | succ M ih =>
      intro k hk
      have hk1 : (k + 1) % us.length < us.length := Nat.mod_lt _ hL
      have hstep := ih ((k + 1) % us.length) hk1
      have hsel : selections k us.length (M + 1) =
          k :: selections ((k + 1) % us.length) us.length M := by
        unfold selections
        rw [List.range_succ_eq_map, List.map_cons, List.map_map]
        congr 1
        · rw [Nat.add_zero]
          exact Nat.mod_eq_of_lt hk
        · apply List.map_congr_left
          intro t _
          simp only [Function.comp_apply]
          rw [Nat.mod_add_mod]
          congr 1
          omega
      have hidx : ((k + 1) % us.length + M) % us.length =
          (k + (M + 1)) % us.length := by
        rw [Nat.mod_add_mod]
        congr 1
        omega
      calc runNext (⟨us, k⟩ : UpstreamPool α) (M + 1)
          = (us.getD k default ::
              (runNext (⟨us, (k + 1) % us.length⟩ : UpstreamPool α) M).1,
             (runNext (⟨us, (k + 1) % us.length⟩ : UpstreamPool α) M).2) := rfl
        _ = (us.getD k default ::
              (selections ((k + 1) % us.length) us.length M).map
                (fun j => us.getD j default),
             ⟨us, ((k + 1) % us.length + M) % us.length⟩) := by rw [hstep]
        _ = ((selections k us.length (M + 1)).map (fun j => us.getD j default),
             ⟨us, (k + (M + 1)) % us.length⟩) := by
              rw [hsel, hidx, List.map_cons]
  refine ⟨rfl, rfl, hrun N i hi, ?_⟩
  intro j hj
  have hNd := Nat.div_add_mod N us.length
  have hcomm : N / us.length * us.length = us.length * (N / us.length) :=
    Nat.mul_comm _ _
  have hdecomp : N = N / us.length * us.length + N % us.length := by omega
  have hcount := selections_count_cycles i hL hj (N / us.length) (N % us.length)
  rw [← hdecomp] at hcount
  have hrem : N % us.length < us.length := Nat.mod_lt _ hL
  have hle : (selections i us.length (N % us.length)).count j ≤ 1 :=
    selections_count_le_one i hL (le_of_lt hrem)
  rcases Nat.eq_zero_or_pos ((selections i us.length (N % us.length)).count j)
    with hzero | hpos
  · left
    omega
  · right
    have hcnt1 : (selections i us.length (N % us.length)).count j = 1 := by
      omega
    have hne : N % us.length ≠ 0 := by
      intro h0
      rw [h0] at hcnt1
      simp [selections] at hcnt1
    have hceil : (N + us.length - 1) / us.length = N / us.length + 1 := by
      have h2 : 1 ≤ N % us.length := Nat.pos_of_ne_zero hne
      have h5 : N + us.length - 1 =
          (N % us.length - 1) + us.length * (N / us.length + 1) := by
        rw [Nat.mul_add, Nat.mul_one]
        omega
      rw [h5, Nat.add_mul_div_left _ _ hL,
        Nat.div_eq_of_lt (by omega : N % us.length - 1 < us.length)]
      omega
    omega

/-- C4, witness: three upstreams, seven selections starting at cursor 0 —
the cursor ends at 1 and position 1 is selected ⌊7/3⌋ = 2 times. -/
theorem round_robin_exact_witness :
    runNext (⟨[10, 20, 30], 0⟩ : UpstreamPool Nat) 7 =
      ((selections 0 3 7).map (fun j => [10, 20, 30].getD j default),
        ⟨[10, 20, 30], (0 + 7) % 3⟩) ∧
    ((selections 0 3 7).count 1 = 7 / 3 ∨
      (selections 0 3 7).count 1 = (7 + 3 - 1) / 3) :=
  ⟨(round_robin_exact [10, 20, 30] 0 7 (by decide) (by decide)).2.2.1,
    (round_robin_exact [10, 20, 30] 0 7 (by decide) (by decide)).2.2.2 1
      (by decide)⟩

end Proxy
